import Mathlib

/-!
# Verification of the feelgoodpga call recorder and conversation manager

Shallow embedding of `src/recorder.py` (audio alignment and mixing, transcript
export) and of the `asyncio` control flow of `src/conversation_manager.py`
(transcript buffering, response scheduling, cancellation and teardown).

Bytes are modelled as `Nat` values (a byte `b` is read modulo 256 where its
numeric value matters); byte strings are `List Nat`.  Python ints are `Int`
where sign matters.  `x & ~1` on a Python int is flooring to the nearest even
number, i.e. `x - x.emod 2`.
-/

namespace FeelGood

/-! ## Recorder data model (src/recorder.py) -/

/-- `OutboundSegment` from src/recorder.py: a segment of outbound audio with its
byte position in the inbound stream. -/
structure OutboundSegment where
  byte_position : Int
  audio : List Nat
deriving DecidableEq, Repr

/-- `Utterance` from src/recorder.py.  Timestamps are modelled as rationals
(Python floats carry exact dyadic values and `json` round-trips them). -/
structure Utterance where
  speaker : String
  text : String
  timestamp : ℚ
deriving DecidableEq

/-- `CallRecording` from src/recorder.py (the persistent fields used by the
claims; wall-clock fields omitted). -/
structure CallRecording where
  call_id : String
  scenario_name : String
  scenario_goal : String
  utterances : List Utterance
  inbound_audio : List Nat
  outbound_segments : List OutboundSegment

/-! ## `_build_aligned_outbound` -/

/-- Drop the last byte when the length is odd: `audio = audio[:-1]` under
`len(audio) % 2 == 1`. -/
def truncEven (l : List α) : List α := l.take (2 * (l.length / 2))

/-- `segment.byte_position & ~1` (Python int bitwise and with ~1 floors to the
nearest even number, also for negatives). -/
def segStart (seg : OutboundSegment) : Int := seg.byte_position - seg.byte_position.emod 2

/-- The segment payload after the even-length truncation of the source. -/
def segAudio (seg : OutboundSegment) : List Nat := truncEven seg.audio

/-- Python slice assignment `result[pos : pos + len(payload)] = payload`
(callers maintain `pos + payload.length ≤ buf.length`). -/
def writeAt (buf : List Nat) (pos : Nat) (payload : List Nat) : List Nat :=
  buf.take pos ++ payload ++ buf.drop (pos + payload.length)

/-- One iteration of the `for segment in self.outbound_segments` loop of
`_build_aligned_outbound`: skip segments whose aligned start is out of range,
otherwise copy the payload, truncated at the buffer end. -/
def alignStep (T : Nat) (result : List Nat) (seg : OutboundSegment) : List Nat :=
  if segStart seg < 0 ∨ (T : Int) ≤ segStart seg then result
  else writeAt result (segStart seg).toNat ((segAudio seg).take (T - (segStart seg).toNat))

/-- `CallRecording._build_aligned_outbound(total_length)`. -/
def build_aligned_outbound (segs : List OutboundSegment) (total_length : Nat) : List Nat :=
  List.foldl (alignStep (2 * (total_length / 2))) (List.replicate (2 * (total_length / 2)) 0) segs

/-- `seg` writes the byte at index `i` of a buffer of length `T`: its aligned
start is in range and `i` falls under the (even-truncated) payload. -/
def segWrites (T : Nat) (seg : OutboundSegment) (i : Nat) : Prop :=
  0 ≤ segStart seg ∧ segStart seg < (T : Int) ∧
    segStart seg ≤ (i : Int) ∧ (i : Int) < segStart seg + (segAudio seg).length

instance (T : Nat) (seg : OutboundSegment) (i : Nat) : Decidable (segWrites T seg i) := by
  unfold segWrites; infer_instance

/-- The byte that the last segment writing index `i` leaves there, scanning in
recording order (`none` when no in-range segment covers `i`). -/
def lastWrite (T : Nat) (segs : List OutboundSegment) (i : Nat) : Option Nat :=
  List.foldl
    (fun acc seg =>
      if segWrites T seg i then (segAudio seg)[i - (segStart seg).toNat]? else acc)
    none segs

/-! ### Lemmas about `writeAt` -/

theorem writeAt_length (buf : List Nat) (pos : Nat) (payload : List Nat)
    (h : pos + payload.length ≤ buf.length) :
    (writeAt buf pos payload).length = buf.length := by
  simp [writeAt]
  omega

theorem writeAt_getElem_left (buf : List Nat) (pos : Nat) (payload : List Nat)
    (hpos : pos ≤ buf.length) (hi : i < pos) :
    (writeAt buf pos payload)[i]? = buf[i]? := by
  rw [writeAt, List.append_assoc, List.getElem?_append, if_pos (by simp; omega),
    List.getElem?_take, if_pos hi]

theorem writeAt_getElem_mid (buf : List Nat) (pos : Nat) (payload : List Nat)
    (hpos : pos ≤ buf.length) (h1 : pos ≤ i) (h2 : i < pos + payload.length) :
    (writeAt buf pos payload)[i]? = payload[i - pos]? := by
  rw [writeAt, List.append_assoc, List.getElem?_append, if_neg (by simp; omega),
    List.getElem?_append, if_pos (by simp; omega)]
  congr 1
  simp
  omega

theorem writeAt_getElem_right (buf : List Nat) (pos : Nat) (payload : List Nat)
    (hpos : pos ≤ buf.length) (h : pos + payload.length ≤ i) :
    (writeAt buf pos payload)[i]? = buf[i]? := by
  rw [writeAt, List.append_assoc, List.getElem?_append, if_neg (by simp; omega),
    List.getElem?_append, if_neg (by simp; omega), List.getElem?_drop]
  congr 1
  simp
  omega

/-! ### Characterization of `_build_aligned_outbound` -/

theorem alignStep_length (T : Nat) (buf : List Nat) (seg : OutboundSegment)
    (hbuf : buf.length = T) : (alignStep T buf seg).length = T := by
  rw [alignStep]
  split
  · exact hbuf
  · rename_i h
    rw [writeAt_length]
    · exact hbuf
    · simp only [List.length_take, hbuf]
      omega

theorem alignStep_getElem (T : Nat) (buf : List Nat) (seg : OutboundSegment)
    (hbuf : buf.length = T) (i : Nat) (hi : i < T) :
    (alignStep T buf seg)[i]? =
      if segWrites T seg i then (segAudio seg)[i - (segStart seg).toNat]? else buf[i]? := by
  rw [alignStep]
  split
  · rename_i h
    rw [if_neg]
    intro hw
    rcases hw with ⟨h1, h2, _, _⟩
    omega
  · rename_i h
    push_neg at h
    obtain ⟨h0, hT⟩ := h
    set p := (segStart seg).toNat with hp
    have hpInt : (p : Int) = segStart seg := Int.toNat_of_nonneg h0
    have hpT : p < T := by omega
    have hple : p ≤ buf.length := by omega
    by_cases hcase1 : i < p
    · rw [writeAt_getElem_left _ _ _ hple hcase1, if_neg]
      intro hw
      rcases hw with ⟨_, _, h3, _⟩
      omega
    · push_neg at hcase1
      by_cases hcase2 : i < p + ((segAudio seg).take (T - p)).length
      · rw [writeAt_getElem_mid _ _ _ hple hcase1 hcase2]
        have hlen : ((segAudio seg).take (T - p)).length = min (T - p) (segAudio seg).length := by
          simp [List.length_take]
        rw [if_pos]
        · rw [List.getElem?_take, if_pos (by omega)]
        · refine ⟨h0, hT, by omega, ?_⟩
          have : i < p + (segAudio seg).length := by omega
          omega
      · push_neg at hcase2
        rw [writeAt_getElem_right _ _ _ hple hcase2, if_neg]
        intro hw
        rcases hw with ⟨_, _, _, h4⟩
        have hlen : ((segAudio seg).take (T - p)).length = min (T - p) (segAudio seg).length := by
          simp [List.length_take]
        omega

theorem foldl_alignStep_length (T : Nat) (segs : List OutboundSegment) (buf : List Nat)
    (hbuf : buf.length = T) : (List.foldl (alignStep T) buf segs).length = T := by
  induction segs generalizing buf with
  | nil => exact hbuf
  | cons seg rest ih =>
    rw [List.foldl_cons]
    exact ih _ (alignStep_length T buf seg hbuf)

/-- A segment that writes position `i` has an actual byte there. -/
theorem segWrites_isSome (T : Nat) (seg : OutboundSegment) (i : Nat) (hw : segWrites T seg i) :
    ((segAudio seg)[i - (segStart seg).toNat]?).isSome := by
  rcases hw with ⟨h1, h2, h3, h4⟩
  have : i - (segStart seg).toNat < (segAudio seg).length := by omega
  simp [List.getElem?_eq_getElem this]

/-- The `lastWrite` fold ignores its accumulator except as a default. -/
theorem lastWrite_accum (T : Nat) (i : Nat) (segs : List OutboundSegment) (a : Option Nat) :
    List.foldl
      (fun acc seg =>
        if segWrites T seg i then (segAudio seg)[i - (segStart seg).toNat]? else acc)
      a segs = (lastWrite T segs i).or a := by
  induction segs generalizing a with
  | nil => simp [lastWrite]
  | cons seg rest ih =>
    rw [lastWrite, List.foldl_cons, List.foldl_cons, ih, ih, Option.or_assoc]
    congr 1
    by_cases hw : segWrites T seg i
    · have hs := segWrites_isSome T seg i hw
      cases hsome : (segAudio seg)[i - (segStart seg).toNat]? with
      | none => rw [hsome] at hs; simp at hs
      | some v => simp [hw, hsome]
    · simp [hw]

theorem lastWrite_cons (T : Nat) (i : Nat) (seg : OutboundSegment)
    (rest : List OutboundSegment) :
    lastWrite T (seg :: rest) i =
      (lastWrite T rest i).or
        (if segWrites T seg i then (segAudio seg)[i - (segStart seg).toNat]? else none) := by
  rw [lastWrite, List.foldl_cons, lastWrite_accum]

/-- Pointwise characterization: after the whole fold, position `i` holds the byte
of the last segment that writes it, or the initial buffer byte when none does. -/
theorem foldl_alignStep_getElem (T : Nat) (segs : List OutboundSegment) (buf : List Nat)
    (hbuf : buf.length = T) (i : Nat) (hi : i < T) :
    (List.foldl (alignStep T) buf segs)[i]? = (lastWrite T segs i).or buf[i]? := by
  induction segs generalizing buf with
  | nil => simp [lastWrite]
  | cons seg rest ih =>
    rw [List.foldl_cons, ih _ (alignStep_length T buf seg hbuf),
      alignStep_getElem T buf seg hbuf i hi, lastWrite_cons, Option.or_assoc]
    congr 1
    by_cases hw : segWrites T seg i
    · have hs := segWrites_isSome T seg i hw
      cases hsome : (segAudio seg)[i - (segStart seg).toNat]? with
      | none => rw [hsome] at hs; simp at hs
      | some v => simp [hw, hsome]
    · simp [hw]

theorem lastWrite_eq_none (T : Nat) (segs : List OutboundSegment) (i : Nat)
    (h : ∀ seg ∈ segs, ¬ segWrites T seg i) : lastWrite T segs i = none := by
  induction segs with
  | nil => simp [lastWrite]
  | cons seg rest ih =>
    rw [lastWrite_cons, ih (fun s hs => h s (List.mem_cons_of_mem seg hs)),
      if_neg (h seg (List.mem_cons_self seg rest)), Option.none_or]

theorem lastWrite_append (T : Nat) (l1 l2 : List OutboundSegment) (i : Nat) :
    lastWrite T (l1 ++ l2) i = (lastWrite T l2 i).or (lastWrite T l1 i) := by
  rw [lastWrite, List.foldl_append, lastWrite_accum]
  rfl

/-- When the last segment writing `i` is `seg`, the fold result at `i` is its byte. -/
theorem lastWrite_of_lastSeg (T : Nat) (i : Nat) (l1 : List OutboundSegment)
    (seg : OutboundSegment) (l2 : List OutboundSegment)
    (hw : segWrites T seg i) (hl2 : ∀ s2 ∈ l2, ¬ segWrites T s2 i) :
    lastWrite T (l1 ++ seg :: l2) i = (segAudio seg)[i - (segStart seg).toNat]? := by
  rw [lastWrite_append, lastWrite_cons, lastWrite_eq_none T l2 i hl2, Option.none_or,
    if_pos hw]
  have hs := segWrites_isSome T seg i hw
  cases hsome : (segAudio seg)[i - (segStart seg).toNat]? with
  | none => rw [hsome] at hs; simp at hs
  | some v => simp [hsome]

theorem build_aligned_outbound_getElem (segs : List OutboundSegment) (L : Nat) (i : Nat)
    (hi : i < 2 * (L / 2)) :
    (build_aligned_outbound segs L)[i]? = (lastWrite (2 * (L / 2)) segs i).or (some 0) := by
  rw [build_aligned_outbound, foldl_alignStep_getElem _ _ _ (by simp) i hi,
    List.getElem?_replicate, if_pos hi]

/-- **C1.** `_build_aligned_outbound(L)` returns a buffer of exactly `L & ~1` bytes;
every byte not written by any in-range segment is 0; a segment whose aligned
offset is in range and which is not overwritten later contributes its
even-truncated payload byte-for-byte (truncated at the buffer end, which is the
only part of the payload a byte of the buffer can show); a segment whose aligned
offset is negative or at least `L & ~1` is skipped without error, leaving the
output as if it were absent. -/
theorem c1_build_aligned_outbound (segs : List OutboundSegment) (L : Nat) :
    (build_aligned_outbound segs L).length = 2 * (L / 2)
    ∧ (∀ i, i < 2 * (L / 2) → (∀ seg ∈ segs, ¬ segWrites (2 * (L / 2)) seg i) →
        (build_aligned_outbound segs L)[i]? = some 0)
    ∧ (∀ l1 seg l2, segs = l1 ++ seg :: l2 →
        ∀ i, i < 2 * (L / 2) → segWrites (2 * (L / 2)) seg i →
          (∀ s2 ∈ l2, ¬ segWrites (2 * (L / 2)) s2 i) →
          (build_aligned_outbound segs L)[i]? = (segAudio seg)[i - (segStart seg).toNat]?)
    ∧ (∀ l1 seg l2, segs = l1 ++ seg :: l2 →
        (segStart seg < 0 ∨ ((2 * (L / 2) : Nat) : Int) ≤ segStart seg) →
        build_aligned_outbound segs L = build_aligned_outbound (l1 ++ l2) L) := by
  refine ⟨?_, ?_, ?_, ?_⟩
  · rw [build_aligned_outbound]
    exact foldl_alignStep_length _ _ _ (by simp)
  · intro i hi hnone
    rw [build_aligned_outbound_getElem segs L i hi, lastWrite_eq_none _ _ _ hnone,
      Option.none_or]
  · intro l1 seg l2 hsegs i hi hw hl2
    rw [build_aligned_outbound_getElem segs L i hi, hsegs,
      lastWrite_of_lastSeg _ _ _ _ _ hw hl2]
    have hs := segWrites_isSome _ seg i hw
    cases hsome : (segAudio seg)[i - (segStart seg).toNat]? with
    | none => rw [hsome] at hs; simp at hs
    | some v => simp [hsome]
  · intro l1 seg l2 hsegs hskip
    subst hsegs
    rw [build_aligned_outbound, build_aligned_outbound, List.foldl_append, List.foldl_append,
      List.foldl_cons, alignStep, if_pos hskip]

/-- **C6.** If two recorded segments both write byte `i` of the aligned output,
the later-recorded one wins: with `b` recorded after `a` and nothing after `b`
writing `i`, the output byte at `i` is `b`'s payload byte. -/
theorem c6_overlap_last_writer_wins (L : Nat) (l1 l2 l3 : List OutboundSegment)
    (a b : OutboundSegment) (i : Nat) (hi : i < 2 * (L / 2))
    (_ha : segWrites (2 * (L / 2)) a i) (hb : segWrites (2 * (L / 2)) b i)
    (hl3 : ∀ s2 ∈ l3, ¬ segWrites (2 * (L / 2)) s2 i) :
    (build_aligned_outbound (l1 ++ a :: l2 ++ b :: l3) L)[i]? =
      (segAudio b)[i - (segStart b).toNat]? := by
  have hre : l1 ++ a :: l2 ++ b :: l3 = (l1 ++ a :: l2) ++ b :: l3 := by simp
  rw [build_aligned_outbound_getElem _ L i hi, hre,
    lastWrite_of_lastSeg _ _ _ _ _ hb hl3]
  have hs := segWrites_isSome _ b i hb
  cases hsome : (segAudio b)[i - (segStart b).toNat]? with
  | none => rw [hsome] at hs; simp at hs
  | some v => simp [hsome]

/-! ## `save()` building the aligned track at inbound length (claim C10) -/

/-- The aligned outbound track as written by `CallRecording.save`:
`self._build_aligned_outbound(len(self.inbound_audio))`. -/
def saved_aligned_outbound (rec : CallRecording) : List Nat :=
  build_aligned_outbound rec.outbound_segments rec.inbound_audio.length

/-- **C10.** The aligned outbound track saved at call end has exactly the inbound
timeline length rounded down to even; no byte beyond that boundary exists
(audio extending past the end is truncated), and a segment whose aligned offset
is at or past the boundary is omitted entirely. -/
theorem c10_saved_aligned_outbound (rec : CallRecording) :
    (saved_aligned_outbound rec).length = 2 * (rec.inbound_audio.length / 2)
    ∧ (∀ i, 2 * (rec.inbound_audio.length / 2) ≤ i → (saved_aligned_outbound rec)[i]? = none)
    ∧ (∀ l1 seg l2, rec.outbound_segments = l1 ++ seg :: l2 →
        ((2 * (rec.inbound_audio.length / 2) : Nat) : Int) ≤ segStart seg →
        saved_aligned_outbound rec = build_aligned_outbound (l1 ++ l2) rec.inbound_audio.length) := by
  obtain ⟨hlen, _, _, hskip⟩ := c1_build_aligned_outbound rec.outbound_segments rec.inbound_audio.length
  refine ⟨hlen, ?_, ?_⟩
  · intro i hi
    rw [List.getElem?_eq_none]
    rw [saved_aligned_outbound, hlen]
    exact hi
  · intro l1 seg l2 hsegs hge
    exact hskip l1 seg l2 hsegs (Or.inr hge)

/-- Witness for C1 at a concrete recording: segment `⟨1, [7,8,9]⟩` in a 5-byte
(→ 4-byte) buffer, and an out-of-range segment that is skipped. -/
theorem c1_build_aligned_outbound_witness :
    (build_aligned_outbound [⟨1, [7, 8, 9]⟩] 5)[2]? = some 0
    ∧ (build_aligned_outbound [⟨1, [7, 8, 9]⟩] 5)[0]? =
        (segAudio ⟨1, [7, 8, 9]⟩)[0 - (segStart ⟨1, [7, 8, 9]⟩).toNat]?
    ∧ build_aligned_outbound [⟨10, [1]⟩] 5 = build_aligned_outbound [] 5 :=
  ⟨(c1_build_aligned_outbound [⟨1, [7, 8, 9]⟩] 5).2.1 2 (by decide) (by decide),
   (c1_build_aligned_outbound [⟨1, [7, 8, 9]⟩] 5).2.2.1 [] ⟨1, [7, 8, 9]⟩ [] rfl 0
     (by decide) (by decide) (by decide),
   (c1_build_aligned_outbound [⟨10, [1]⟩] 5).2.2.2 [] ⟨10, [1]⟩ [] rfl (by decide)⟩

/-- Witness for C6: segments `⟨0, [1,2,3,4]⟩` then `⟨2, [9,9]⟩` overlap at byte 2;
the later one wins. -/
theorem c6_overlap_last_writer_wins_witness :
    (build_aligned_outbound ([] ++ (⟨0, [1, 2, 3, 4]⟩ : OutboundSegment) :: [] ++
        (⟨2, [9, 9]⟩ : OutboundSegment) :: []) 6)[2]? =
      (segAudio ⟨2, [9, 9]⟩)[2 - (segStart ⟨2, [9, 9]⟩).toNat]? :=
  c6_overlap_last_writer_wins 6 [] [] [] ⟨0, [1, 2, 3, 4]⟩ ⟨2, [9, 9]⟩ 2
    (by decide) (by decide) (by decide) (by decide)

/-- Witness for C10: a recording with a 5-byte inbound timeline and a segment at
offset 4 = the even boundary, which is omitted from the saved aligned track. -/
theorem c10_saved_aligned_outbound_witness :
    (saved_aligned_outbound ⟨"c", "s", "g", [], [0, 0, 0, 0, 0], [⟨4, [1, 2]⟩]⟩)[7]? = none
    ∧ saved_aligned_outbound ⟨"c", "s", "g", [], [0, 0, 0, 0, 0], [⟨4, [1, 2]⟩]⟩ =
        build_aligned_outbound [] 5 :=
  ⟨(c10_saved_aligned_outbound ⟨"c", "s", "g", [], [0, 0, 0, 0, 0], [⟨4, [1, 2]⟩]⟩).2.1 7
     (by decide),
   (c10_saved_aligned_outbound ⟨"c", "s", "g", [], [0, 0, 0, 0, 0], [⟨4, [1, 2]⟩]⟩).2.2
     [] ⟨4, [1, 2]⟩ [] rfl (by decide)⟩

/-! ## `_mix_audio` (claim C5)

`audioop` with width 2 reads little-endian signed 16-bit samples.
`audioop.mul(data, 2, 0.5)` multiplies each sample by the exact double 0.5 and
floors (its fbound rounds toward minus infinity; no clamping can occur at
factor 0.5), so it is flooring division by 2.  `audioop.add(a, b, 2)` adds
samples with clamping to the signed 16-bit range. -/

/-- A 16-bit little-endian signed sample from two bytes. -/
def int16OfBytes (lo hi : Nat) : Int :=
  if lo % 256 + 256 * (hi % 256) < 32768 then ((lo % 256 + 256 * (hi % 256) : Nat) : Int)
  else ((lo % 256 + 256 * (hi % 256) : Nat) : Int) - 65536

/-- Decode a PCM byte string into its 16-bit samples. -/
def toSamples : List Nat → List Int
  | lo :: hi :: rest => int16OfBytes lo hi :: toSamples rest
  | _ => []

/-- Re-encode a sample into two little-endian bytes. -/
def bytesOfInt16 (v : Int) : List Nat :=
  [(v.emod 65536).toNat % 256, (v.emod 65536).toNat / 256]

/-- One sample of `audioop.mul(data, 2, 0.5)`: flooring division by 2
(`Int` division is Euclidean division, which floors for the divisor 2). -/
def halfSample (v : Int) : Int := v / 2

/-- One sample of `audioop.add(a, b, 2)`: addition clamped to signed 16 bits. -/
def addClamp (a b : Int) : Int := max (-32768) (min 32767 (a + b))

/-- `audio.ljust(n, zero byte)`. -/
def padTrack (l : List Nat) (n : Nat) : List Nat := l ++ List.replicate (n - l.length) 0

/-- The common length both tracks are padded to in `_mix_audio`
(`max_len & ~1` over the even-truncated inputs). -/
def mixLen (audio1 audio2 : List Nat) : Nat :=
  2 * (max (truncEven audio1).length (truncEven audio2).length / 2)

/-- The mixed sample sequence computed by `_mix_audio`: both tracks truncated to
even length, padded, halved, then added with clamping. -/
def mixSamples (audio1 audio2 : List Nat) : List Int :=
  List.zipWith addClamp
    ((toSamples (padTrack (truncEven audio1) (mixLen audio1 audio2))).map halfSample)
    ((toSamples (padTrack (truncEven audio2) (mixLen audio1 audio2))).map halfSample)

/-- `CallRecording._mix_audio(audio1, audio2)`. -/
def mix_audio (audio1 audio2 : List Nat) : List Nat :=
  ((mixSamples audio1 audio2).map bytesOfInt16).flatten

theorem truncEven_length (l : List α) : (truncEven l).length = 2 * (l.length / 2) := by
  simp [truncEven]
  omega

theorem toSamples_length : ∀ l : List Nat, (toSamples l).length = l.length / 2
  | [] => by simp [toSamples]
  | [x] => by simp [toSamples]
  | lo :: hi :: rest => by
      simp [toSamples, toSamples_length rest]
      omega

theorem padTrack_length (l : List Nat) (n : Nat) (h : l.length ≤ n) :
    (padTrack l n).length = n := by
  simp [padTrack]
  omega

theorem mixLen_eq (audio1 audio2 : List Nat) :
    mixLen audio1 audio2 = max (truncEven audio1).length (truncEven audio2).length := by
  rw [mixLen, truncEven_length, truncEven_length]
  omega

theorem int16OfBytes_bounds (lo hi : Nat) :
    -32768 ≤ int16OfBytes lo hi ∧ int16OfBytes lo hi ≤ 32767 := by
  rw [int16OfBytes]
  have h1 : lo % 256 < 256 := Nat.mod_lt _ (by omega)
  have h2 : hi % 256 < 256 := Nat.mod_lt _ (by omega)
  split <;> constructor <;> omega

theorem mem_toSamples_bounds : ∀ l : List Nat, ∀ v ∈ toSamples l, -32768 ≤ v ∧ v ≤ 32767
  | [] => by simp [toSamples]
  | [x] => by simp [toSamples]
  | lo :: hi :: rest => by
      intro v hv
      rw [show toSamples (lo :: hi :: rest) = int16OfBytes lo hi :: toSamples rest from rfl]
        at hv
      rcases List.mem_cons.mp hv with h | h
      · exact h ▸ int16OfBytes_bounds lo hi
      · exact mem_toSamples_bounds rest v h

theorem halfSample_bounds (v : Int) (h : -32768 ≤ v ∧ v ≤ 32767) :
    -16384 ≤ halfSample v ∧ halfSample v ≤ 16383 := by
  rw [halfSample]
  omega

/-- With both inputs attenuated to half amplitude, the clamped addition never
actually clamps. -/
theorem zipWith_addClamp_eq : ∀ l1 l2 : List Int,
    (∀ v ∈ l1, -16384 ≤ v ∧ v ≤ 16383) → (∀ v ∈ l2, -16384 ≤ v ∧ v ≤ 16383) →
    List.zipWith addClamp l1 l2 = List.zipWith (fun x y => x + y) l1 l2
  | [], l2, _, _ => by simp
  | x :: xs, [], _, _ => by simp
  | x :: xs, y :: ys, h1, h2 => by
      rw [List.zipWith_cons_cons, List.zipWith_cons_cons,
        zipWith_addClamp_eq xs ys (fun v hv => h1 v (List.mem_cons_of_mem x hv))
          (fun v hv => h2 v (List.mem_cons_of_mem y hv))]
      have hx := h1 x (List.mem_cons_self x xs)
      have hy := h2 y (List.mem_cons_self y ys)
      have : addClamp x y = x + y := by rw [addClamp]; omega
      rw [this]

theorem zipWith_addClamp_bounds : ∀ l1 l2 : List Int,
    ∀ v ∈ List.zipWith addClamp l1 l2, -32768 ≤ v ∧ v ≤ 32767
  | [], l2 => by simp
  | x :: xs, [] => by simp
  | x :: xs, y :: ys => by
      intro v hv
      rw [List.zipWith_cons_cons] at hv
      rcases List.mem_cons.mp hv with h | h
      · subst h
        rw [addClamp]
        constructor <;> omega
      · exact zipWith_addClamp_bounds xs ys v h

theorem flatten_bytesOfInt16_length :
    ∀ l : List Int, ((l.map bytesOfInt16).flatten).length = 2 * l.length
  | [] => by simp
  | v :: rest => by
      simp [flatten_bytesOfInt16_length rest, bytesOfInt16]
      omega

/-- Samples of the half-attenuated padded tracks are within half scale. -/
theorem mem_halfTrack_bounds (t : List Nat) :
    ∀ v ∈ (toSamples t).map halfSample, -16384 ≤ v ∧ v ≤ 16383 := by
  intro v hv
  rcases List.mem_map.mp hv with ⟨u, hu, rfl⟩
  exact halfSample_bounds u (mem_toSamples_bounds t u hu)

/-- **C5.** `_mix_audio` output length is the max of the even-truncated input
lengths; the mixed samples are exactly the sum of the two half-attenuated
tracks (the defensive clamp never fires), and every mixed sample is within the
signed 16-bit range, for all byte inputs including full-scale ones. -/
theorem c5_mix_audio (audio1 audio2 : List Nat) :
    (mix_audio audio1 audio2).length = max (truncEven audio1).length (truncEven audio2).length
    ∧ mixSamples audio1 audio2 =
        List.zipWith (fun x y => x + y)
          ((toSamples (padTrack (truncEven audio1) (mixLen audio1 audio2))).map halfSample)
          ((toSamples (padTrack (truncEven audio2) (mixLen audio1 audio2))).map halfSample)
    ∧ (∀ v ∈ mixSamples audio1 audio2, -32768 ≤ v ∧ v ≤ 32767) := by
  have hle1 : (truncEven audio1).length ≤ mixLen audio1 audio2 := by
    rw [mixLen_eq]; exact le_max_left _ _
  have hle2 : (truncEven audio2).length ≤ mixLen audio1 audio2 := by
    rw [mixLen_eq]; exact le_max_right _ _
  have hlen : (mixSamples audio1 audio2).length = mixLen audio1 audio2 / 2 := by
    rw [mixSamples, List.length_zipWith, List.length_map, List.length_map,
      toSamples_length, toSamples_length, padTrack_length _ _ hle1, padTrack_length _ _ hle2]
    omega
  refine ⟨?_, ?_, fun v hv => zipWith_addClamp_bounds _ _ v hv⟩
  · rw [mix_audio, flatten_bytesOfInt16_length, hlen, mixLen_eq]
    have e1 := truncEven_length audio1
    have e2 := truncEven_length audio2
    omega
  · exact zipWith_addClamp_eq _ _ (mem_halfTrack_bounds _) (mem_halfTrack_bounds _)

/-- Witness for C5 at full-scale inputs: both tracks a single sample -32768;
the mix is exactly -32768, inside the signed 16-bit range. -/
theorem c5_mix_audio_witness :
    (-32768 : Int) ∈ mixSamples [0, 128] [0, 128] ∧
      (-32768 ≤ (-32768 : Int) ∧ (-32768 : Int) ≤ 32767) :=
  ⟨by decide, (c5_mix_audio [0, 128] [0, 128]).2.2 (-32768) (by decide)⟩

/-! ## Transcript export round-trip (claim C9)

`save()` serializes `transcript_data` with `json.dump`; re-parsing is modelled
at the JSON value level (CPython json round-trips strings exactly and floats
via shortest-repr, so text serialization is injective on these values). -/

/-- A JSON value (numbers as rationals: every Python float is a dyadic
rational and round-trips through `json`). -/
inductive JValue
  | jstr (s : String)
  | jnum (q : ℚ)
  | jarr (elems : List JValue)
  | jobj (fields : List (String × JValue))

/-- `asdict(u)` for an `Utterance`, as serialized inside `transcript_data`
(dataclass field order: speaker, text, timestamp). -/
def encodeUtterance (u : Utterance) : JValue :=
  .jobj [("speaker", .jstr u.speaker), ("text", .jstr u.text),
         ("timestamp", .jnum u.timestamp)]

/-- Reading one utterance object back from the parsed JSON. -/
def decodeUtterance : JValue → Option Utterance
  | .jobj [("speaker", .jstr s), ("text", .jstr t), ("timestamp", .jnum q)] =>
      some ⟨s, t, q⟩
  | _ => none

/-- Reading back the utterance list. -/
def decodeUtterances : List JValue → Option (List Utterance)
  | [] => some []
  | j :: rest =>
      match decodeUtterance j, decodeUtterances rest with
      | some u, some l => some (u :: l)
      | _, _ => none

/-- The `transcript_data` dictionary written by `CallRecording.save` to
`transcript.json`. -/
def transcriptData (rec : CallRecording) (duration : ℚ) : JValue :=
  .jobj [("call_id", .jstr rec.call_id),
         ("scenario", .jobj [("name", .jstr rec.scenario_name),
                             ("goal", .jstr rec.scenario_goal)]),
         ("duration_seconds", .jnum duration),
         ("utterances", .jarr (rec.utterances.map encodeUtterance))]

/-- Re-parsing the machine-readable artifact: look up the utterances key and
decode each entry. -/
def parseTranscriptUtterances : JValue → Option (List Utterance)
  | .jobj fields =>
      match fields.lookup "utterances" with
      | some (.jarr l) => decodeUtterances l
      | _ => none
  | _ => none

theorem decodeUtterances_map_encode :
    ∀ l : List Utterance, decodeUtterances (l.map encodeUtterance) = some l
  | [] => rfl
  | u :: rest => by
      rw [List.map_cons]
      show decodeUtterances (encodeUtterance u :: rest.map encodeUtterance) = some (u :: rest)
      rw [decodeUtterances]
      rw [decodeUtterances_map_encode rest]
      rfl

/-- **C9.** Utterances recorded into a `CallRecording`, exported by `save()` as
the machine-readable JSON transcript, and re-parsed, give back the identical
ordered sequence of (speaker, text, timestamp) triples. -/
theorem c9_transcript_round_trip (rec : CallRecording) (duration : ℚ) :
    parseTranscriptUtterances (transcriptData rec duration) = some rec.utterances := by
  rw [transcriptData, parseTranscriptUtterances]
  show decodeUtterances (rec.utterances.map encodeUtterance) = some rec.utterances
  exact decodeUtterances_map_encode rec.utterances

/-! ## Conversation manager control flow (src/conversation_manager.py)

Small-step model of one call session at `await` granularity: code between two
suspension points runs atomically on the single-threaded event loop.  The
environment chooses event interleavings (transcript arrivals, media frames,
timer completions, scheduling of cancelled tasks).  Driver facts from
src/app.py and src/stt_service.py reflected in enabling conditions: the
websocket handler awaits `conversation.start()` before processing any media
frame, and Deepgram produces transcripts only from audio sent by the media
handler, so no transcript or media event occurs before `start()` returns;
`stop()` cancels the STT receive task before its first await and
`on_transcript` contains no await, so no transcript event occurs after
`stop()` begins.  `asyncio.Task.cancel` on a task suspended at an await makes
that await raise `CancelledError` when the task is next scheduled; the
`finally` block of `_generate_and_speak` then runs atomically
(`CancelledError` is a `BaseException`, not caught by `except Exception`). -/

inductive Speaker
  | agent
  | patient
deriving DecidableEq, Repr

/-- Suspension points inside `_delayed_response` before generation begins. -/
inductive WaitLoc
  | settling
  | confirmSilence
  | grace (orig : Nat) (combined : String)
  | confirm2 (combined : String)
deriving DecidableEq, Repr

/-- Suspension points inside `_generate_and_speak`.  `sending` carries the
captured `start_position` (taken from the inbound length right before the send
loop) and the synthesized audio length. -/
inductive GenLoc
  | llmCall
  | ttsWait
  | sending (startPos audioLen : Nat)
deriving DecidableEq, Repr

inductive TaskLoc
  | wait (w : WaitLoc)
  | gen (g : GenLoc)
deriving DecidableEq, Repr

/-- A live `ResponseTask` (`_delayed_response` task): its current suspension
point and whether cancellation has been requested but not yet delivered. -/
structure TaskSt where
  loc : TaskLoc
  cancelled : Bool
deriving DecidableEq, Repr

/-- One call session: the `ConversationManager` fields plus the observable
recording state and the history of `llm.generate_response` inputs. -/
structure CM where
  botSpeaking : Bool
  pending : List String
  task : Option TaskSt
  zombies : List TaskSt
  greeting : Option GenLoc
  started : Bool
  stopped : Bool
  saved : Bool
  utterances : List (Speaker × String)
  inboundLen : Nat
  segs : List (Int × Nat)
  genCalls : List (Option String)
deriving DecidableEq, Repr

/-- `audioop.ulaw2lin(data, 2)` produces one 2-byte sample per input byte. -/
def ulaw2linLen (n : Nat) : Nat := 2 * n

/-- Python `str.rstrip` whitespace (modelled on the ASCII whitespace set). -/
def isPyWhitespace (c : Char) : Bool :=
  c = ' ' || c = '\t' || c = '\n' || c = '\r' || c = '\x0b' || c = '\x0c'

/-- `combined_text.rstrip().endswith(SENTENCE_ENDINGS)`: the last
non-whitespace character is one of the sentence endings. -/
def endsSentence (t : String) : Bool :=
  match t.data.reverse.dropWhile isPyWhitespace with
  | c :: _ => c = '.' || c = '?' || c = '!'
  | [] => false

/-- The atomic block at the end of the `_delayed_response` wait phase: clear the
buffer and enter `_generate_and_speak(combined)` up to its first await (the
llm call, which is recorded as the generation invocation). -/
def enterGen (s : CM) (combined : String) : CM :=
  { s with pending := [], botSpeaking := true,
           genCalls := s.genCalls ++ [some combined],
           task := some ⟨.gen .llmCall, false⟩ }

/-- The `finally` block of a task-based `_generate_and_speak`: clear the
speaking flag and schedule a follow-up response task iff text is pending
(a completed task with no follow-up is `none` = done). -/
def genFinally (s : CM) : CM :=
  { s with botSpeaking := false,
           task := if s.pending.isEmpty then none else some ⟨.wait .settling, false⟩ }

/-- The `finally` block of the greeting `_generate_and_speak` run by `start()`,
after which `start()` returns to the websocket handler. -/
def greetingFinally (s : CM) : CM :=
  { s with botSpeaking := false, greeting := none, started := true,
           task := if s.pending.isEmpty then s.task else some ⟨.wait .settling, false⟩ }

/-- Events: `begin` = the `start()` call reaching the greeting generation;
`llmRet`/`ttsRet`/`sendDone` = normal completion of the awaits inside
`_generate_and_speak`; `genFail` = an exception caught by its handler;
`transcript` = a final transcript delivered to `on_transcript`; `media` = an
inbound media frame; `settleDone`/`pollQuiet`/`graceDone`/`poll2Quiet` = the
waits of `_delayed_response` elapsing; `cancelRun`/`zombieRun` = a cancelled
task being scheduled and unwinding; `stopBegin`/`saveRec` = the teardown
entering `stop()` and reaching `recording.save()`. -/
inductive Ev
  | begin
  | llmRet (resp : String)
  | ttsRet (audioLen : Nat)
  | sendDone
  | genFail
  | transcript (t : String)
  | media (n : Nat)
  | settleDone
  | pollQuiet
  | graceDone
  | poll2Quiet
  | cancelRun
  | zombieRun
  | stopBegin
  | saveRec
deriving DecidableEq, Repr

/-- One atomic scheduling step.  `none` means the event is not enabled. -/
def step : Ev → CM → Option CM
  | .begin, s =>
      if s.started = false ∧ s.greeting = none then
        some { s with greeting := some .llmCall, botSpeaking := true,
                      genCalls := s.genCalls ++ [none] }
      else none
  | .llmRet resp, s =>
      match s.greeting, s.task with
      | some .llmCall, _ =>
          some { s with greeting := some .ttsWait,
                        utterances := s.utterances ++ [(.patient, resp)] }
      | none, some ⟨.gen .llmCall, false⟩ =>
          some { s with task := some ⟨.gen .ttsWait, false⟩,
                        utterances := s.utterances ++ [(.patient, resp)] }
      | _, _ => none
  | .ttsRet audioLen, s =>
      match s.greeting, s.task with
      | some .ttsWait, _ =>
          some { s with greeting := some (.sending s.inboundLen audioLen) }
      | none, some ⟨.gen .ttsWait, false⟩ =>
          some { s with task := some ⟨.gen (.sending s.inboundLen audioLen), false⟩ }
      | _, _ => none
  | .sendDone, s =>
      match s.greeting, s.task with
      | some (.sending sp al), _ =>
          some (greetingFinally { s with segs := s.segs ++ [((sp : Int), al)] })
      | none, some ⟨.gen (.sending sp al), false⟩ =>
          some (genFinally { s with segs := s.segs ++ [((sp : Int), al)] })
      | _, _ => none
  | .genFail, s =>
      match s.greeting, s.task with
      | some _, _ => some (greetingFinally s)
      | none, some ⟨.gen _, false⟩ => some (genFinally s)
      | _, _ => none
  | .transcript t, s =>
      if s.started = true ∧ s.stopped = false then
        if s.botSpeaking then
          some { s with utterances := s.utterances ++ [(.agent, t)],
                        pending := s.pending ++ [t] }
        else
          some { s with utterances := s.utterances ++ [(.agent, t)],
                        pending := s.pending ++ [t],
                        task := some ⟨.wait .settling, false⟩,
                        zombies := s.zombies ++ (match s.task with
                          | some tk => [{ tk with cancelled := true }]
                          | none => []) }
      else none
  | .media n, s =>
      if s.started = true ∧ s.stopped = false then
        some { s with inboundLen := s.inboundLen + ulaw2linLen n }
      else none
  | .settleDone, s =>
      match s.task with
      | some ⟨.wait .settling, false⟩ =>
          some { s with task := some ⟨.wait .confirmSilence, false⟩ }
      | _ => none
  | .pollQuiet, s =>
      match s.task with
      | some ⟨.wait .confirmSilence, false⟩ =>
          if s.pending.isEmpty then some { s with task := none }
          else
            if endsSentence (String.intercalate " " s.pending) then
              some (enterGen s (String.intercalate " " s.pending))
            else
              some { s with task := some ⟨.wait
                (.grace s.pending.length (String.intercalate " " s.pending)), false⟩ }
      | _ => none
  | .graceDone, s =>
      match s.task with
      | some ⟨.wait (.grace orig combined), false⟩ =>
          if orig < s.pending.length then
            some { s with task := some ⟨.wait
              (.confirm2 (String.intercalate " " s.pending)), false⟩ }
          else some (enterGen s combined)
      | _ => none
  | .poll2Quiet, s =>
      match s.task with
      | some ⟨.wait (.confirm2 combined), false⟩ => some (enterGen s combined)
      | _ => none
  | .cancelRun, s =>
      match s.task with
      | some ⟨.wait _, true⟩ => some { s with task := none }
      | some ⟨.gen _, true⟩ =>
          some { s with botSpeaking := false,
                        task := if s.pending.isEmpty then none
                                else some ⟨.wait .settling, false⟩ }
      | _ => none
  | .zombieRun, s =>
      match s.zombies with
      | [] => none
      | z :: rest =>
          match z.loc with
          | .wait _ => some { s with zombies := rest }
          | .gen _ =>
              some { s with zombies := rest, botSpeaking := false,
                            task := if s.pending.isEmpty then s.task
                                    else some ⟨.wait .settling, false⟩ }
  | .stopBegin, s =>
      if s.started = true ∧ s.stopped = false then
        some { s with stopped := true,
                      task := s.task.map (fun tk => { tk with cancelled := true }) }
      else none
  | .saveRec, s =>
      if s.stopped = true ∧ s.saved = false then some { s with saved := true }
      else none

/-- The session state right after the media stream starts (the
`ConversationManager` constructor). -/
def initCM : CM :=
  { botSpeaking := false, pending := [], task := none, zombies := [],
    greeting := none, started := false, stopped := false, saved := false,
    utterances := [], inboundLen := 0, segs := [], genCalls := [] }

/-- Run a sequence of events; `none` when some event is not enabled. -/
def run : List Ev → CM → Option CM
  | [], s => some s
  | e :: l, s =>
      match step e s with
      | some s2 => run l s2
      | none => none

/-- A session state reachable from the session start. -/
def Reachable (s : CM) : Prop := ∃ l, run l initCM = some s

/-- Is the slot occupied by a task currently inside `_generate_and_speak`? -/
def taskIsGen : Option TaskSt → Bool
  | some ⟨.gen _, _⟩ => true
  | _ => false

/-- Is a task location one of the wait-phase suspension points? -/
def isWaitTL : TaskLoc → Bool
  | .wait _ => true
  | .gen _ => false

/-- The global invariant of a session.  In particular: the speaking flag holds
exactly while some `_generate_and_speak` is in flight; a superseded (zombie)
task is always a cancelled wait-phase task; the inbound timeline length is
always even; every recorded outbound segment offset is non-negative and even;
and a non-cancelled wait task past its combine point carries exactly the join
of the current pending buffer. -/
structure Inv (s : CM) : Prop where
  greetingIso : s.greeting.isSome → s.task = none ∧ s.zombies = [] ∧ s.started = false
    ∧ s.pending = [] ∧ s.stopped = false
  speakFlag : s.botSpeaking = (s.greeting.isSome || taskIsGen s.task)
  zombiesWait : ∀ z ∈ s.zombies, z.cancelled = true ∧ isWaitTL z.loc = true
  inbEven : s.inboundLen % 2 = 0
  segsAligned : ∀ p ∈ s.segs, 0 ≤ p.1 ∧ p.1 % 2 = 0
  preStart : s.started = false → s.task = none ∧ s.zombies = [] ∧ s.pending = []
    ∧ s.stopped = false
  greetSendEven : ∀ sp al, s.greeting = some (.sending sp al) → sp % 2 = 0
  taskSendEven : ∀ sp al c, s.task = some ⟨.gen (.sending sp al), c⟩ → sp % 2 = 0
  graceSync : ∀ o c, s.task = some ⟨.wait (.grace o c), false⟩ →
    o = s.pending.length ∧ c = String.intercalate " " s.pending
  confirm2Sync : ∀ c, s.task = some ⟨.wait (.confirm2 c), false⟩ →
    c = String.intercalate " " s.pending

theorem inv_initCM : Inv initCM := by
  constructor <;> simp [initCM, taskIsGen]

theorem inv_step {e : Ev} {s s2 : CM} (h : Inv s) (hst : step e s = some s2) : Inv s2 := by
  obtain ⟨h1, h2, h3, h4, h5, h6, h7, h8, h9, h10⟩ := h
  cases e with
  | begin =>
      simp only [step] at hst
      split at hst
      · rename_i hcnd
        obtain ⟨hns, hng⟩ := hcnd
        obtain ⟨ht, hz, hp, hstp⟩ := h6 hns
        injection hst with hst
        subst hst
        refine ⟨fun _ => ⟨ht, hz, hns, hp, hstp⟩, by simp, h3, h4, h5,
          fun _ => ⟨ht, hz, hp, hstp⟩, ?_, h8, h9, h10⟩
        intro sp al hc2
        simp at hc2
      · exact Option.noConfusion hst
  | llmRet resp =>
      simp only [step] at hst
      split at hst
      · rename_i hg
        obtain ⟨ht, hz, hns, hp, hstp⟩ := h1 (by rw [hg]; rfl)
        injection hst with hst
        subst hst
        refine ⟨fun _ => ⟨ht, hz, hns, hp, hstp⟩, by simp [h2, hg], h3, h4, h5,
          fun _ => ⟨ht, hz, hp, hstp⟩, ?_, h8, h9, h10⟩
        intro sp al hc2
        simp at hc2
      · rename_i hg ht
        injection hst with hst
        subst hst
        refine ⟨?_, by simp [h2, ht, taskIsGen], h3, h4, h5, ?_, h7, ?_, ?_, ?_⟩
        · intro hc2
          rw [(h1 hc2).1] at ht
          exact Option.noConfusion ht
        · intro hns
          rw [(h6 hns).1] at ht
          exact Option.noConfusion ht
        · intro sp al c hc2
          simp at hc2
        · intro o c hc2
          simp at hc2
        · intro c hc2
          simp at hc2
      · exact Option.noConfusion hst
  | ttsRet audioLen =>
      simp only [step] at hst
      split at hst
      · rename_i hg
        obtain ⟨ht, hz, hns, hp, hstp⟩ := h1 (by rw [hg]; rfl)
        injection hst with hst
        subst hst
        refine ⟨fun _ => ⟨ht, hz, hns, hp, hstp⟩, by simp [h2, hg], h3, h4, h5,
          fun _ => ⟨ht, hz, hp, hstp⟩, ?_, h8, h9, h10⟩
        intro sp al hc2
        simp at hc2
        omega
      · rename_i hg ht
        injection hst with hst
        subst hst
        refine ⟨?_, by simp [h2, ht, taskIsGen], h3, h4, h5, ?_, h7, ?_, ?_, ?_⟩
        · intro hc2
          rw [(h1 hc2).1] at ht
          exact Option.noConfusion ht
        · intro hns
          rw [(h6 hns).1] at ht
          exact Option.noConfusion ht
        · intro sp al c hc2
          simp at hc2
          omega
        · intro o c hc2
          simp at hc2
        · intro c hc2
          simp at hc2
      · exact Option.noConfusion hst
  | sendDone =>
      simp only [step] at hst
      split at hst
      · rename_i sp al hg
        obtain ⟨ht, hz, hns, hp, hstp⟩ := h1 (by rw [hg]; rfl)
        have hsp : sp % 2 = 0 := h7 sp al hg
        injection hst with hst
        subst hst
        refine ⟨?_, ?_, h3, h4, ?_, ?_, ?_, ?_, ?_, ?_⟩
        · intro hc2
          simp [greetingFinally] at hc2
        · simp [greetingFinally, hp, ht, taskIsGen]
        · intro p hmem
          rcases List.mem_append.mp hmem with hm | hm
          · exact h5 p hm
          · simp at hm
            subst hm
            simp
            omega
        · intro hc2
          simp [greetingFinally] at hc2
        · intro sp2 al2 hc2
          simp [greetingFinally] at hc2
        · intro sp2 al2 c hc2
          simp [greetingFinally, hp, ht] at hc2
        · intro o c hc2
          simp [greetingFinally, hp, ht] at hc2
        · intro c hc2
          simp [greetingFinally, hp, ht] at hc2
      · rename_i sp al hg ht
        have hsp : sp % 2 = 0 := h8 sp al false ht
        injection hst with hst
        subst hst
        refine ⟨?_, ?_, h3, h4, ?_, ?_, h7, ?_, ?_, ?_⟩
        · intro hc2
          rw [(h1 hc2).1] at ht
          exact Option.noConfusion ht
        · have hg2 : s.greeting = none := by
            cases hgr : s.greeting with
            | none => rfl
            | some g =>
                rw [(h1 (by rw [hgr]; rfl)).1] at ht
                exact Option.noConfusion ht
          cases he : s.pending.isEmpty <;> simp [genFinally, hg2, he, taskIsGen]
        · intro p hmem
          rcases List.mem_append.mp hmem with hm | hm
          · exact h5 p hm
          · simp at hm
            subst hm
            simp
            omega
        · intro hns
          rw [(h6 hns).1] at ht
          exact Option.noConfusion ht
        · intro sp2 al2 c hc2
          cases he : s.pending.isEmpty <;> simp [genFinally, he] at hc2
        · intro o c hc2
          cases he : s.pending.isEmpty <;> simp [genFinally, he] at hc2
        · intro c hc2
          cases he : s.pending.isEmpty <;> simp [genFinally, he] at hc2
      · exact Option.noConfusion hst
  | genFail =>
      simp only [step] at hst
      split at hst
      · rename_i hg
        obtain ⟨ht, hz, hns, hp, hstp⟩ := h1 (by rw [hg]; rfl)
        injection hst with hst
        subst hst
        refine ⟨?_, ?_, h3, h4, h5, ?_, ?_, ?_, ?_, ?_⟩
        · intro hc2
          simp [greetingFinally] at hc2
        · simp [greetingFinally, hp, ht, taskIsGen]
        · intro hc2
          simp [greetingFinally] at hc2
        · intro sp2 al2 hc2
          simp [greetingFinally] at hc2
        · intro sp2 al2 c hc2
          simp [greetingFinally, hp, ht] at hc2
        · intro o c hc2
          simp [greetingFinally, hp, ht] at hc2
        · intro c hc2
          simp [greetingFinally, hp, ht] at hc2
      · rename_i g hg ht
        injection hst with hst
        subst hst
        refine ⟨?_, ?_, h3, h4, h5, ?_, h7, ?_, ?_, ?_⟩
        · intro hc2
          rw [(h1 hc2).1] at ht
          exact Option.noConfusion ht
        · cases he : s.pending.isEmpty <;> simp [genFinally, hg, he, taskIsGen]
        · intro hns
          rw [(h6 hns).1] at ht
          exact Option.noConfusion ht
        · intro sp2 al2 c hc2
          cases he : s.pending.isEmpty <;> simp [genFinally, he] at hc2
        · intro o c hc2
          cases he : s.pending.isEmpty <;> simp [genFinally, he] at hc2
        · intro c hc2
          cases he : s.pending.isEmpty <;> simp [genFinally, he] at hc2
      · exact Option.noConfusion hst
  | transcript t =>
      simp only [step] at hst
      split at hst
      · rename_i hcnd
        obtain ⟨hs, hnstp⟩ := hcnd
        have hg : s.greeting = none := by
          cases hgr : s.greeting with
          | none => rfl
          | some g =>
              have h1s := (h1 (by rw [hgr]; rfl)).2.2.1
              rw [hs] at h1s
              exact Bool.noConfusion h1s
        split at hst
        · rename_i hbs
          have htg : taskIsGen s.task = true := by
            rw [h2, hg] at hbs
            simpa using hbs
          injection hst with hst
          subst hst
          refine ⟨?_, h2, h3, h4, h5, ?_, h7, h8, ?_, ?_⟩
          · intro hc2
            have h1s := (h1 hc2).2.2.1
            rw [hs] at h1s
            exact Bool.noConfusion h1s
          · intro hns
            have hns2 : s.started = false := hns
            rw [hns2] at hs
            exact Bool.noConfusion hs
          · intro o c hco
            have hco2 : s.task = some ⟨.wait (.grace o c), false⟩ := hco
            rw [hco2] at htg
            simp [taskIsGen] at htg
          · intro c hco
            have hco2 : s.task = some ⟨.wait (.confirm2 c), false⟩ := hco
            rw [hco2] at htg
            simp [taskIsGen] at htg
        · rename_i hbs
          have hbs2 : s.botSpeaking = false := by simpa using hbs
          injection hst with hst
          subst hst
          refine ⟨?_, ?_, ?_, h4, h5, ?_, h7, ?_, ?_, ?_⟩
          · intro hc2
            have h1s := (h1 hc2).2.2.1
            rw [hs] at h1s
            exact Bool.noConfusion h1s
          · simp [hbs2, hg, taskIsGen]
          · intro z hmem
            have hmem2 : z ∈ s.zombies ++ (match s.task with
              | some tk => [{ tk with cancelled := true }]
              | none => []) := hmem
            rcases List.mem_append.mp hmem2 with hm | hm
            · exact h3 z hm
            · have htg : taskIsGen s.task = false := by
                rw [h2, hg] at hbs2
                simpa using hbs2
              cases htk : s.task with
              | none => rw [htk] at hm; simp at hm
              | some tk =>
                  rw [htk] at hm
                  simp at hm
                  subst hm
                  rw [htk] at htg
                  cases tk with
                  | mk loc cc =>
                      cases loc with
                      | wait w => exact ⟨rfl, rfl⟩
                      | gen g => simp [taskIsGen] at htg
          · intro hns
            have hns2 : s.started = false := hns
            rw [hns2] at hs
            exact Bool.noConfusion hs
          · intro sp al c hc2
            simp at hc2
          · intro o c hc2
            simp at hc2
          · intro c hc2
            simp at hc2
      · exact Option.noConfusion hst
  | media n =>
      simp only [step] at hst
      split at hst
      · injection hst with hst
        subst hst
        refine ⟨h1, h2, h3, ?_, h5, h6, h7, h8, h9, h10⟩
        simp only [ulaw2linLen]
        omega
      · exact Option.noConfusion hst
  | settleDone =>
      simp only [step] at hst
      split at hst
      · rename_i ht
        injection hst with hst
        subst hst
        refine ⟨?_, by simp [h2, ht, taskIsGen], h3, h4, h5, ?_, h7, ?_, ?_, ?_⟩
        · intro hc2
          rw [(h1 hc2).1] at ht
          exact Option.noConfusion ht
        · intro hns
          rw [(h6 hns).1] at ht
          exact Option.noConfusion ht
        · intro sp al c hc2
          simp at hc2
        · intro o c hc2
          simp at hc2
        · intro c hc2
          simp at hc2
      · exact Option.noConfusion hst
  | pollQuiet =>
      simp only [step] at hst
      split at hst
      · rename_i ht
        split at hst
        · injection hst with hst
          subst hst
          refine ⟨?_, by simp [h2, ht, taskIsGen], h3, h4, h5, ?_, h7, ?_, ?_, ?_⟩
          · intro hc2
            rw [(h1 hc2).1] at ht
            exact Option.noConfusion ht
          · intro hns
            rw [(h6 hns).1] at ht
            exact Option.noConfusion ht
          · intro sp al c hc2
            exact Option.noConfusion hc2
          · intro o c hc2
            exact Option.noConfusion hc2
          · intro c hc2
            exact Option.noConfusion hc2
        · split at hst
          · injection hst with hst
            subst hst
            refine ⟨?_, by simp [enterGen, taskIsGen], h3, h4, h5, ?_, h7, ?_, ?_, ?_⟩
            · intro hc2
              rw [(h1 hc2).1] at ht
              exact Option.noConfusion ht
            · intro hns
              rw [(h6 hns).1] at ht
              exact Option.noConfusion ht
            · intro sp al c hc2
              simp [enterGen] at hc2
            · intro o c hc2
              simp [enterGen] at hc2
            · intro c hc2
              simp [enterGen] at hc2
          · injection hst with hst
            subst hst
            refine ⟨?_, by simp [h2, ht, taskIsGen], h3, h4, h5, ?_, h7, ?_, ?_, ?_⟩
            · intro hc2
              rw [(h1 hc2).1] at ht
              exact Option.noConfusion ht
            · intro hns
              rw [(h6 hns).1] at ht
              exact Option.noConfusion ht
            · intro sp al c hc2
              simp at hc2
            · intro o c hc2
              simp at hc2
              exact ⟨hc2.1.symm, hc2.2.symm⟩
            · intro c hc2
              simp at hc2
      · exact Option.noConfusion hst
  | graceDone =>
      simp only [step] at hst
      split at hst
      · rename_i orig combined ht
        split at hst
        · injection hst with hst
          subst hst
          refine ⟨?_, by simp [h2, ht, taskIsGen], h3, h4, h5, ?_, h7, ?_, ?_, ?_⟩
          · intro hc2
            rw [(h1 hc2).1] at ht
            exact Option.noConfusion ht
          · intro hns
            rw [(h6 hns).1] at ht
            exact Option.noConfusion ht
          · intro sp al c hc2
            simp at hc2
          · intro o c hc2
            simp at hc2
          · intro c hc2
            simp at hc2
            exact hc2.symm
        · injection hst with hst
          subst hst
          refine ⟨?_, by simp [enterGen, taskIsGen], h3, h4, h5, ?_, h7, ?_, ?_, ?_⟩
          · intro hc2
            rw [(h1 hc2).1] at ht
            exact Option.noConfusion ht
          · intro hns
            rw [(h6 hns).1] at ht
            exact Option.noConfusion ht
          · intro sp al c hc2
            simp [enterGen] at hc2
          · intro o c hc2
            simp [enterGen] at hc2
          · intro c hc2
            simp [enterGen] at hc2
      · exact Option.noConfusion hst
  | poll2Quiet =>
      simp only [step] at hst
      split at hst
      · rename_i combined ht
        injection hst with hst
        subst hst
        refine ⟨?_, by simp [enterGen, taskIsGen], h3, h4, h5, ?_, h7, ?_, ?_, ?_⟩
        · intro hc2
          rw [(h1 hc2).1] at ht
          exact Option.noConfusion ht
        · intro hns
          rw [(h6 hns).1] at ht
          exact Option.noConfusion ht
        · intro sp al c hc2
          simp [enterGen] at hc2
        · intro o c hc2
          simp [enterGen] at hc2
        · intro c hc2
          simp [enterGen] at hc2
      · exact Option.noConfusion hst
  | cancelRun =>
      simp only [step] at hst
      split at hst
      · rename_i w ht
        injection hst with hst
        subst hst
        refine ⟨?_, by simp [h2, ht, taskIsGen], h3, h4, h5, ?_, h7, ?_, ?_, ?_⟩
        · intro hc2
          rw [(h1 hc2).1] at ht
          exact Option.noConfusion ht
        · intro hns
          rw [(h6 hns).1] at ht
          exact Option.noConfusion ht
        · intro sp al c hc2
          exact Option.noConfusion hc2
        · intro o c hc2
          exact Option.noConfusion hc2
        · intro c hc2
          exact Option.noConfusion hc2
      · rename_i g ht
        have hg : s.greeting = none := by
          cases hgr : s.greeting with
          | none => rfl
          | some gg =>
              rw [(h1 (by rw [hgr]; rfl)).1] at ht
              exact Option.noConfusion ht
        injection hst with hst
        subst hst
        refine ⟨?_, ?_, h3, h4, h5, ?_, h7, ?_, ?_, ?_⟩
        · intro hc2
          rw [(h1 hc2).1] at ht
          exact Option.noConfusion ht
        · cases he : s.pending.isEmpty <;> simp [hg, he, taskIsGen]
        · intro hns
          rw [(h6 hns).1] at ht
          exact Option.noConfusion ht
        · intro sp al c hc2
          cases he : s.pending.isEmpty <;> simp [he] at hc2
        · intro o c hc2
          cases he : s.pending.isEmpty <;> simp [he] at hc2
        · intro c hc2
          cases he : s.pending.isEmpty <;> simp [he] at hc2
      · exact Option.noConfusion hst
  | zombieRun =>
      simp only [step] at hst
      split at hst
      · exact Option.noConfusion hst
      · rename_i z rest hz
        split at hst
        · rename_i w hw
          injection hst with hst
          subst hst
          refine ⟨?_, h2, ?_, h4, h5, ?_, h7, h8, h9, h10⟩
          · intro hc2
            rw [(h1 hc2).2.1] at hz
            exact List.noConfusion hz
          · intro z2 hm
            have hm2 : z2 ∈ rest := hm
            exact h3 z2 (by rw [hz]; exact List.mem_cons_of_mem z hm2)
          · intro hns
            rw [(h6 hns).2.1] at hz
            exact List.noConfusion hz
        · rename_i g hw
          have h3z := (h3 z (by rw [hz]; exact List.mem_cons_self z rest)).2
          rw [hw] at h3z
          simp [isWaitTL] at h3z
  | stopBegin =>
      simp only [step] at hst
      split at hst
      · rename_i hcnd
        obtain ⟨hs, hnstp⟩ := hcnd
        injection hst with hst
        subst hst
        have hmap : taskIsGen (s.task.map (fun tk => { tk with cancelled := true }))
            = taskIsGen s.task := by
          cases s.task with
          | none => rfl
          | some tk => cases tk with | mk loc cc => cases loc <;> rfl
        refine ⟨?_, by simp [h2, hmap], h3, h4, h5, ?_, h7, ?_, ?_, ?_⟩
        · intro hc2
          have h1s := (h1 hc2).2.2.1
          rw [hs] at h1s
          exact Bool.noConfusion h1s
        · intro hns
          have hns2 : s.started = false := hns
          rw [hns2] at hs
          exact Bool.noConfusion hs
        · intro sp al c hc2
          cases htk : s.task with
          | none => rw [htk] at hc2; exact Option.noConfusion hc2
          | some tk =>
              rw [htk] at hc2
              simp at hc2
              exact h8 sp al tk.cancelled (by rw [htk, ← hc2.1])
        · intro o c hc2
          cases htk : s.task with
          | none => rw [htk] at hc2; exact Option.noConfusion hc2
          | some tk =>
              rw [htk] at hc2
              simp at hc2
        · intro c hc2
          cases htk : s.task with
          | none => rw [htk] at hc2; exact Option.noConfusion hc2
          | some tk =>
              rw [htk] at hc2
              simp at hc2
      · exact Option.noConfusion hst
  | saveRec =>
      simp only [step] at hst
      split at hst
      · injection hst with hst
        subst hst
        exact ⟨h1, h2, h3, h4, h5, h6, h7, h8, h9, h10⟩
      · exact Option.noConfusion hst

theorem inv_run {l : List Ev} {s s2 : CM} (h : Inv s) (hr : run l s = some s2) : Inv s2 := by
  induction l generalizing s with
  | nil => rw [run] at hr; injection hr with hr; subst hr; exact h
  | cons e rest ih =>
      rw [run] at hr
      cases hstep : step e s with
      | none => rw [hstep] at hr; exact Option.noConfusion hr
      | some s1 =>
          rw [hstep] at hr
          exact ih (inv_step h hstep) hr

theorem inv_reachable {s : CM} (h : Reachable s) : Inv s := by
  obtain ⟨l, hl⟩ := h
  exact inv_run inv_initCM hl

/-- **C3.** Mutual exclusion: at every reachable point where a step invokes
response generation (records a new `generate_response` call), the
`is_bot_speaking` flag is false — no previous generation/synthesis/emission
sequence for this session is still outstanding. -/
theorem c3_mutual_exclusion {s s2 : CM} {e : Ev} (h : Reachable s)
    (hst : step e s = some s2) (hgen : s2.genCalls ≠ s.genCalls) :
    s.botSpeaking = false := by
  obtain ⟨h1, h2, h3, h4, h5, h6, h7, h8, h9, h10⟩ := inv_reachable h
  cases e with
  | begin =>
      simp only [step] at hst
      split at hst
      · rename_i hcnd
        rw [h2, hcnd.2, (h6 hcnd.1).1]
        rfl
      · exact Option.noConfusion hst
  | llmRet resp =>
      simp only [step] at hst
      split at hst
      · injection hst with hst; subst hst; exact absurd rfl hgen
      · injection hst with hst; subst hst; exact absurd rfl hgen
      · exact Option.noConfusion hst
  | ttsRet audioLen =>
      simp only [step] at hst
      split at hst
      · injection hst with hst; subst hst; exact absurd rfl hgen
      · injection hst with hst; subst hst; exact absurd rfl hgen
      · exact Option.noConfusion hst
  | sendDone =>
      simp only [step] at hst
      split at hst
      · injection hst with hst; subst hst; exact absurd rfl hgen
      · injection hst with hst; subst hst; exact absurd rfl hgen
      · exact Option.noConfusion hst
  | genFail =>
      simp only [step] at hst
      split at hst
      · injection hst with hst; subst hst; exact absurd rfl hgen
      · injection hst with hst; subst hst; exact absurd rfl hgen
      · exact Option.noConfusion hst
  | transcript t =>
      simp only [step] at hst
      split at hst
      · split at hst
        · injection hst with hst; subst hst; exact absurd rfl hgen
        · injection hst with hst; subst hst; exact absurd rfl hgen
      · exact Option.noConfusion hst
  | media n =>
      simp only [step] at hst
      split at hst
      · injection hst with hst; subst hst; exact absurd rfl hgen
      · exact Option.noConfusion hst
  | settleDone =>
      simp only [step] at hst
      split at hst
      · injection hst with hst; subst hst; exact absurd rfl hgen
      · exact Option.noConfusion hst
  | pollQuiet =>
      simp only [step] at hst
      split at hst
      · rename_i ht
        have hg : s.greeting = none := by
          cases hgr : s.greeting with
          | none => rfl
          | some g =>
              rw [(h1 (by rw [hgr]; rfl)).1] at ht
              exact Option.noConfusion ht
        rw [h2, hg, ht]
        rfl
      · exact Option.noConfusion hst
  | graceDone =>
      simp only [step] at hst
      split at hst
      · rename_i orig combined ht
        have hg : s.greeting = none := by
          cases hgr : s.greeting with
          | none => rfl
          | some g =>
              rw [(h1 (by rw [hgr]; rfl)).1] at ht
              exact Option.noConfusion ht
        rw [h2, hg, ht]
        rfl
      · exact Option.noConfusion hst
  | poll2Quiet =>
      simp only [step] at hst
      split at hst
      · rename_i combined ht
        have hg : s.greeting = none := by
          cases hgr : s.greeting with
          | none => rfl
          | some g =>
              rw [(h1 (by rw [hgr]; rfl)).1] at ht
              exact Option.noConfusion ht
        rw [h2, hg, ht]
        rfl
      · exact Option.noConfusion hst
  | cancelRun =>
      simp only [step] at hst
      split at hst
      · injection hst with hst; subst hst; exact absurd rfl hgen
      · injection hst with hst; subst hst; exact absurd rfl hgen
      · exact Option.noConfusion hst
  | zombieRun =>
      simp only [step] at hst
      split at hst
      · exact Option.noConfusion hst
      · split at hst
        · injection hst with hst; subst hst; exact absurd rfl hgen
        · injection hst with hst; subst hst; exact absurd rfl hgen
  | stopBegin =>
      simp only [step] at hst
      split at hst
      · injection hst with hst; subst hst; exact absurd rfl hgen
      · exact Option.noConfusion hst
  | saveRec =>
      simp only [step] at hst
      split at hst
      · injection hst with hst; subst hst; exact absurd rfl hgen
      · exact Option.noConfusion hst

/-- Witness for C3 at the session start: the greeting generation is the first
recorded call and the speaking flag is false at its entry. -/
theorem c3_mutual_exclusion_witness :
    initCM.botSpeaking = false :=
  @c3_mutual_exclusion initCM
    ({ initCM with greeting := some GenLoc.llmCall, botSpeaking := true,
                   genCalls := initCM.genCalls ++ [none] } : CM)
    Ev.begin ⟨[], rfl⟩ (by decide) (by decide)

/-- **C8.** On every reachable session state, the inbound timeline length is
even (each mu-law byte decodes to one 2-byte sample) and every recorded
outbound segment byte position is a non-negative even integer. -/
theorem c8_outbound_offsets_aligned (s : CM) (h : Reachable s) :
    s.inboundLen % 2 = 0 ∧ ∀ p ∈ s.segs, 0 ≤ p.1 ∧ p.1 % 2 = 0 :=
  ⟨(inv_reachable h).inbEven, (inv_reachable h).segsAligned⟩

/-- Witness for C8: a concrete session (greeting, media, one reply) whose two
recorded segments sit at even non-negative offsets 0 and 6. -/
theorem c8_outbound_offsets_aligned_witness :
    (⟨false, [], none, [], none, true, false, false,
      [(.patient, "a"), (.agent, "Hi."), (.patient, "b")], 6,
      [((0 : Int), 4), ((6 : Int), 10)], [none, some "Hi."]⟩ : CM).inboundLen % 2 = 0
    ∧ ∀ p ∈ (⟨false, [], none, [], none, true, false, false,
        [(.patient, "a"), (.agent, "Hi."), (.patient, "b")], 6,
        [((0 : Int), 4), ((6 : Int), 10)], [none, some "Hi."]⟩ : CM).segs,
        0 ≤ p.1 ∧ p.1 % 2 = 0 :=
  c8_outbound_offsets_aligned _
    ⟨[.begin, .llmRet "a", .ttsRet 4, .sendDone, .media 3, .transcript "Hi.",
      .settleDone, .pollQuiet, .llmRet "b", .ttsRet 10, .sendDone], by decide⟩

/-- `task.cancel()` as applied to the response-task slot: requesting
cancellation on a live task, and a no-op on an absent (or done) task. -/
def cancelTask (t : Option TaskSt) : Option TaskSt :=
  t.map (fun tk => { tk with cancelled := true })

/-- **C7.** Cancellation is harmless and idempotent: cancelling zero, one or
many times never fails (`stopBegin` is enabled regardless of the task state and
repeated cancellation is a no-op), no cancellation-related step ever removes
text from the pending buffer, a transcript arrival (which cancels the live
task) only appends its text, and whenever a generation is finally invoked it
consumes exactly the space-joined pending buffer (the greeting consumes the
empty one). -/
theorem c7_cancellation_idempotent_no_clear :
    (∀ t, cancelTask (cancelTask t) = cancelTask t)
    ∧ (∀ s : CM, s.started = true → s.stopped = false → (step Ev.stopBegin s).isSome = true)
    ∧ (∀ s s2 : CM, step Ev.stopBegin s = some s2 →
        s2.task = cancelTask s.task ∧ s2.pending = s.pending)
    ∧ (∀ s s2 : CM, step Ev.cancelRun s = some s2 → s2.pending = s.pending)
    ∧ (∀ s s2 : CM, step Ev.zombieRun s = some s2 → s2.pending = s.pending)
    ∧ (∀ (s : CM) (t : String) (s2 : CM), step (Ev.transcript t) s = some s2 →
        s2.pending = s.pending ++ [t])
    ∧ (∀ (s s2 : CM) (e : Ev), Reachable s → step e s = some s2 →
        s2.genCalls ≠ s.genCalls →
        (s2.genCalls = s.genCalls ++ [none] ∧ s.pending = []) ∨
        (s2.genCalls = s.genCalls ++ [some (String.intercalate " " s.pending)]
          ∧ s2.pending = [])) := by
  refine ⟨?_, ?_, ?_, ?_, ?_, ?_, ?_⟩
  · intro t
    cases t with
    | none => rfl
    | some tk => cases tk with | mk loc c => rfl
  · intro s hs hstp
    simp [step, hs, hstp]
  · intro s s2 hst
    simp only [step] at hst
    split at hst
    · injection hst with hst
      subst hst
      exact ⟨rfl, rfl⟩
    · exact Option.noConfusion hst
  · intro s s2 hst
    simp only [step] at hst
    split at hst
    · injection hst with hst; subst hst; rfl
    · injection hst with hst; subst hst; rfl
    · exact Option.noConfusion hst
  · intro s s2 hst
    simp only [step] at hst
    split at hst
    · exact Option.noConfusion hst
    · split at hst
      · injection hst with hst; subst hst; rfl
      · injection hst with hst; subst hst; rfl
  · intro s t s2 hst
    simp only [step] at hst
    split at hst
    · split at hst
      · injection hst with hst; subst hst; rfl
      · injection hst with hst; subst hst; rfl
    · exact Option.noConfusion hst
  · intro s s2 e hreach hst hgen
    obtain ⟨h1, h2, h3, h4, h5, h6, h7, h8, h9, h10⟩ := inv_reachable hreach
    cases e with
    | begin =>
        simp only [step] at hst
        split at hst
        · rename_i hcnd
          injection hst with hst
          subst hst
          exact Or.inl ⟨rfl, (h6 hcnd.1).2.2.1⟩
        · exact Option.noConfusion hst
    | llmRet resp =>
        simp only [step] at hst
        split at hst
        · injection hst with hst; subst hst; exact absurd rfl hgen
        · injection hst with hst; subst hst; exact absurd rfl hgen
        · exact Option.noConfusion hst
    | ttsRet audioLen =>
        simp only [step] at hst
        split at hst
        · injection hst with hst; subst hst; exact absurd rfl hgen
        · injection hst with hst; subst hst; exact absurd rfl hgen
        · exact Option.noConfusion hst
    | sendDone =>
        simp only [step] at hst
        split at hst
        · injection hst with hst; subst hst; exact absurd rfl hgen
        · injection hst with hst; subst hst; exact absurd rfl hgen
        · exact Option.noConfusion hst
    | genFail =>
        simp only [step] at hst
        split at hst
        · injection hst with hst; subst hst; exact absurd rfl hgen
        · injection hst with hst; subst hst; exact absurd rfl hgen
        · exact Option.noConfusion hst
    | transcript t =>
        simp only [step] at hst
        split at hst
        · split at hst
          · injection hst with hst; subst hst; exact absurd rfl hgen
          · injection hst with hst; subst hst; exact absurd rfl hgen
        · exact Option.noConfusion hst
    | media n =>
        simp only [step] at hst
        split at hst
        · injection hst with hst; subst hst; exact absurd rfl hgen
        · exact Option.noConfusion hst
    | settleDone =>
        simp only [step] at hst
        split at hst
        · injection hst with hst; subst hst; exact absurd rfl hgen
        · exact Option.noConfusion hst
    | pollQuiet =>
        simp only [step] at hst
        split at hst
        · split at hst
          · injection hst with hst; subst hst; exact absurd rfl hgen
          · split at hst
            · injection hst with hst
              subst hst
              exact Or.inr ⟨rfl, rfl⟩
            · injection hst with hst; subst hst; exact absurd rfl hgen
        · exact Option.noConfusion hst
    | graceDone =>
        simp only [step] at hst
        split at hst
        · rename_i orig combined ht
          split at hst
          · injection hst with hst; subst hst; exact absurd rfl hgen
          · injection hst with hst
            subst hst
            refine Or.inr ⟨?_, rfl⟩
            have hc := (h9 orig combined ht).2
            subst hc
            rfl
        · exact Option.noConfusion hst
    | poll2Quiet =>
        simp only [step] at hst
        split at hst
        · rename_i combined ht
          injection hst with hst
          subst hst
          refine Or.inr ⟨?_, rfl⟩
          have hc := h10 combined ht
          subst hc
          rfl
        · exact Option.noConfusion hst
    | cancelRun =>
        simp only [step] at hst
        split at hst
        · injection hst with hst; subst hst; exact absurd rfl hgen
        · injection hst with hst; subst hst; exact absurd rfl hgen
        · exact Option.noConfusion hst
    | zombieRun =>
        simp only [step] at hst
        split at hst
        · exact Option.noConfusion hst
        · split at hst
          · injection hst with hst; subst hst; exact absurd rfl hgen
          · injection hst with hst; subst hst; exact absurd rfl hgen
    | stopBegin =>
        simp only [step] at hst
        split at hst
        · injection hst with hst; subst hst; exact absurd rfl hgen
        · exact Option.noConfusion hst
    | saveRec =>
        simp only [step] at hst
        split at hst
        · injection hst with hst; subst hst; exact absurd rfl hgen
        · exact Option.noConfusion hst

/-- Witness for C7: double cancel of a live waiting task is one cancel;
cancelling via `stop()` on a session with buffered text keeps the buffer; a
transcript cancelling the live task appends its text. -/
theorem c7_cancellation_witness :
    cancelTask (cancelTask (some ⟨.wait .settling, false⟩))
      = cancelTask (some ⟨.wait .settling, false⟩)
    ∧ (step Ev.stopBegin
        (⟨false, ["x"], some ⟨.wait .settling, false⟩, [], none, true, false, false,
          [], 0, [], []⟩ : CM)).isSome = true
    ∧ (⟨false, ["x", "y"], some ⟨.wait .settling, false⟩,
        [⟨.wait .settling, true⟩], none, true, false, false,
        [(.agent, "y")], 0, [], []⟩ : CM).pending
      = (⟨false, ["x"], some ⟨.wait .settling, false⟩, [], none, true, false, false,
          [], 0, [], []⟩ : CM).pending ++ ["y"] :=
  ⟨c7_cancellation_idempotent_no_clear.1 (some ⟨.wait .settling, false⟩),
   c7_cancellation_idempotent_no_clear.2.1 _ (by decide) (by decide),
   c7_cancellation_idempotent_no_clear.2.2.2.2.2.1 _ "y" _ (by decide)⟩

/-- **C4 (violation exhibited).** A teardown trace in which `stop()` cancels
the outstanding ResponseTask while it is inside `_generate_and_speak` with
buffered agent text: delivering the cancellation runs the `finally` block,
which (because `pending_agent_text` is nonempty) creates a NEW ResponseTask
during teardown; after `recording.save()` that task fires and invokes response
generation on the finalized session.  So after `stop()` a ResponseTask can
remain that later fires and mutates the session. -/
theorem c4_stop_teardown_spawns_new_task :
    ∃ sMid sEnd : CM,
      run [Ev.begin, Ev.llmRet "hello", Ev.ttsRet 4, Ev.sendDone,
           Ev.transcript "Hi?", Ev.settleDone, Ev.pollQuiet,
           Ev.llmRet "reply", Ev.ttsRet 6,
           Ev.transcript "Are you there?", Ev.stopBegin, Ev.cancelRun] initCM = some sMid
      ∧ sMid.stopped = true ∧ sMid.saved = false
      ∧ sMid.task = some ⟨.wait .settling, false⟩
      ∧ run [Ev.saveRec, Ev.settleDone, Ev.pollQuiet] sMid = some sEnd
      ∧ sEnd.saved = true
      ∧ sEnd.genCalls = [none, some "Hi?", some "Are you there?"] := by
  refine ⟨⟨false, ["Are you there?"], some ⟨.wait .settling, false⟩, [], none,
            true, true, false,
            [(.patient, "hello"), (.agent, "Hi?"), (.patient, "reply"),
             (.agent, "Are you there?")], 0, [((0 : Int), 4)], [none, some "Hi?"]⟩,
          ⟨true, [], some ⟨.gen .llmCall, false⟩, [], none, true, true, true,
            [(.patient, "hello"), (.agent, "Hi?"), (.patient, "reply"),
             (.agent, "Are you there?")], 0, [((0 : Int), 4)],
            [none, some "Hi?", some "Are you there?"]⟩,
          by decide, rfl, rfl, rfl, by decide, rfl, rfl⟩

/-- Is this event a final-transcript arrival? -/
def isTranscriptEv : Ev → Bool
  | .transcript _ => true
  | _ => false

/-- The idle state between turns: started, not stopping, nothing buffered,
no live task, nothing speaking. -/
def Quiescent (s : CM) : Prop :=
  s.started = true ∧ s.stopped = false ∧ s.botSpeaking = false ∧ s.pending = []
  ∧ s.task = none ∧ s.zombies = [] ∧ s.greeting = none

/-- Which wait-phase locations a live task may occupy while the buffer holds
exactly `ts`, and what its stored combined text must then be. -/
def waitOK (ts : List String) : WaitLoc → Prop
  | .settling => True
  | .confirmSilence => True
  | .grace o c => o = ts.length ∧ c = String.intercalate " " ts
  | .confirm2 c => c = String.intercalate " " ts

/-- Invariant for a buffering round: once the texts `ts` are buffered and no
further transcript arrives, the session is (A) still waiting with buffer `ts`
and generation history `G`, (B) generating with the buffer consumed into
exactly one new call carrying the space-join of `ts`, or (C) done with that
one call recorded. -/
def C2Inv (G : List (Option String)) (ts : List String) (s : CM) : Prop :=
  s.started = true ∧ s.greeting = none
  ∧ (∀ z ∈ s.zombies, isWaitTL z.loc = true)
  ∧ ((s.pending = ts ∧ s.genCalls = G ∧ s.botSpeaking = false
        ∧ (s.task = none ∨ ∃ w c, s.task = some ⟨.wait w, c⟩ ∧ waitOK ts w))
    ∨ (s.pending = [] ∧ s.genCalls = G ++ [some (String.intercalate " " ts)]
        ∧ s.botSpeaking = true ∧ ∃ g c, s.task = some ⟨.gen g, c⟩)
    ∨ (s.pending = [] ∧ s.genCalls = G ++ [some (String.intercalate " " ts)]
        ∧ s.botSpeaking = false ∧ s.task = none))

theorem c2inv_step {G : List (Option String)} {ts : List String} {e : Ev} {s s2 : CM}
    (hinv : C2Inv G ts s) (hnt : isTranscriptEv e = false) (hst : step e s = some s2) :
    C2Inv G ts s2 := by
  obtain ⟨hs, hg, hz, hcase⟩ := hinv
  cases e with
  | begin =>
      simp only [step] at hst
      split at hst
      · rename_i hcnd
        have hns := hcnd.1
        rw [hs] at hns
        exact Bool.noConfusion hns
      · exact Option.noConfusion hst
  | llmRet resp =>
      simp only [step] at hst
      split at hst
      · rename_i hga
        rw [hg] at hga
        exact Option.noConfusion hga
      · rename_i hgn ht
        rcases hcase with ⟨hp, hG, hb, htk⟩ | ⟨hp, hG, hb, g, c, htk⟩ | ⟨hp, hG, hb, htk⟩
        · rcases htk with htk | ⟨w, c, htk, hwok⟩
          · rw [htk] at ht
            exact Option.noConfusion ht
          · rw [htk] at ht
            simp at ht
        · injection hst with hst
          subst hst
          exact ⟨hs, hg, hz, Or.inr (Or.inl ⟨hp, hG, hb, .ttsWait, false, rfl⟩)⟩
        · rw [htk] at ht
          exact Option.noConfusion ht
      · exact Option.noConfusion hst
  | ttsRet audioLen =>
      simp only [step] at hst
      split at hst
      · rename_i hga
        rw [hg] at hga
        exact Option.noConfusion hga
      · rename_i hgn ht
        rcases hcase with ⟨hp, hG, hb, htk⟩ | ⟨hp, hG, hb, g, c, htk⟩ | ⟨hp, hG, hb, htk⟩
        · rcases htk with htk | ⟨w, c, htk, hwok⟩
          · rw [htk] at ht
            exact Option.noConfusion ht
          · rw [htk] at ht
            simp at ht
        · injection hst with hst
          subst hst
          exact ⟨hs, hg, hz,
            Or.inr (Or.inl ⟨hp, hG, hb, .sending s.inboundLen audioLen, false, rfl⟩)⟩
        · rw [htk] at ht
          exact Option.noConfusion ht
      · exact Option.noConfusion hst
  | sendDone =>
      simp only [step] at hst
      split at hst
      · rename_i sp al hga
        rw [hg] at hga
        exact Option.noConfusion hga
      · rename_i sp al hgn ht
        rcases hcase with ⟨hp, hG, hb, htk⟩ | ⟨hp, hG, hb, g, c, htk⟩ | ⟨hp, hG, hb, htk⟩
        · rcases htk with htk | ⟨w, c, htk, hwok⟩
          · rw [htk] at ht
            exact Option.noConfusion ht
          · rw [htk] at ht
            simp at ht
        · injection hst with hst
          subst hst
          refine ⟨hs, hg, hz, Or.inr (Or.inr ⟨hp, hG, rfl, ?_⟩)⟩
          simp [genFinally, hp]
        · rw [htk] at ht
          exact Option.noConfusion ht
      · exact Option.noConfusion hst
  | genFail =>
      simp only [step] at hst
      split at hst
      · rename_i hga
        rw [hg] at hga
        exact Option.noConfusion hga
      · rename_i g2 hgn ht
        rcases hcase with ⟨hp, hG, hb, htk⟩ | ⟨hp, hG, hb, g, c, htk⟩ | ⟨hp, hG, hb, htk⟩
        · rcases htk with htk | ⟨w, c, htk, hwok⟩
          · rw [htk] at ht
            exact Option.noConfusion ht
          · rw [htk] at ht
            simp at ht
        · injection hst with hst
          subst hst
          refine ⟨hs, hg, hz, Or.inr (Or.inr ⟨hp, hG, rfl, ?_⟩)⟩
          simp [genFinally, hp]
        · rw [htk] at ht
          exact Option.noConfusion ht
      · exact Option.noConfusion hst
  | transcript t =>
      simp [isTranscriptEv] at hnt
  | media n =>
      simp only [step] at hst
      split at hst
      · injection hst with hst
        subst hst
        exact ⟨hs, hg, hz, hcase⟩
      · exact Option.noConfusion hst
  | settleDone =>
      simp only [step] at hst
      split at hst
      · rename_i ht
        rcases hcase with ⟨hp, hG, hb, htk⟩ | ⟨hp, hG, hb, g, c, htk⟩ | ⟨hp, hG, hb, htk⟩
        · injection hst with hst
          subst hst
          exact ⟨hs, hg, hz,
            Or.inl ⟨hp, hG, hb, Or.inr ⟨.confirmSilence, false, rfl, trivial⟩⟩⟩
        · rw [htk] at ht
          simp at ht
        · rw [htk] at ht
          exact Option.noConfusion ht
      · exact Option.noConfusion hst
  | pollQuiet =>
      simp only [step] at hst
      split at hst
      · rename_i ht
        rcases hcase with ⟨hp, hG, hb, htk⟩ | ⟨hp, hG, hb, g, c, htk⟩ | ⟨hp, hG, hb, htk⟩
        · split at hst
          · injection hst with hst
            subst hst
            exact ⟨hs, hg, hz, Or.inl ⟨hp, hG, hb, Or.inl rfl⟩⟩
          · split at hst
            · injection hst with hst
              subst hst
              refine ⟨hs, hg, hz, Or.inr (Or.inl ⟨rfl, ?_, rfl, .llmCall, false, rfl⟩)⟩
              simp [enterGen, hG, hp]
            · injection hst with hst
              subst hst
              refine ⟨hs, hg, hz,
                Or.inl ⟨hp, hG, hb, Or.inr ⟨_, false, rfl, ?_, ?_⟩⟩⟩
              · rw [hp]
              · rw [hp]
        · rw [htk] at ht
          simp at ht
        · rw [htk] at ht
          exact Option.noConfusion ht
      · exact Option.noConfusion hst
  | graceDone =>
      simp only [step] at hst
      split at hst
      · rename_i orig combined ht
        rcases hcase with ⟨hp, hG, hb, htk⟩ | ⟨hp, hG, hb, g, c, htk⟩ | ⟨hp, hG, hb, htk⟩
        · rcases htk with htk | ⟨w, c, htk, hwok⟩
          · rw [htk] at ht
            exact Option.noConfusion ht
          · have hwc := htk.symm.trans ht
            simp at hwc
            rw [hwc.1] at hwok
            simp only [waitOK] at hwok
            split at hst
            · rename_i hlt
              exfalso
              rw [hp, ← hwok.1] at hlt
              omega
            · injection hst with hst
              subst hst
              refine ⟨hs, hg, hz, Or.inr (Or.inl ⟨rfl, ?_, rfl, .llmCall, false, rfl⟩)⟩
              simp [enterGen, hG, hwok.2]
        · rw [htk] at ht
          simp at ht
        · rw [htk] at ht
          exact Option.noConfusion ht
      · exact Option.noConfusion hst
  | poll2Quiet =>
      simp only [step] at hst
      split at hst
      · rename_i combined ht
        rcases hcase with ⟨hp, hG, hb, htk⟩ | ⟨hp, hG, hb, g, c, htk⟩ | ⟨hp, hG, hb, htk⟩
        · rcases htk with htk | ⟨w, c, htk, hwok⟩
          · rw [htk] at ht
            exact Option.noConfusion ht
          · have hwc := htk.symm.trans ht
            simp at hwc
            rw [hwc.1] at hwok
            simp only [waitOK] at hwok
            injection hst with hst
            subst hst
            refine ⟨hs, hg, hz, Or.inr (Or.inl ⟨rfl, ?_, rfl, .llmCall, false, rfl⟩)⟩
            simp [enterGen, hG, hwok]
        · rw [htk] at ht
          simp at ht
        · rw [htk] at ht
          exact Option.noConfusion ht
      · exact Option.noConfusion hst
  | cancelRun =>
      simp only [step] at hst
      split at hst
      · rename_i w ht
        rcases hcase with ⟨hp, hG, hb, htk⟩ | ⟨hp, hG, hb, g, c, htk⟩ | ⟨hp, hG, hb, htk⟩
        · injection hst with hst
          subst hst
          exact ⟨hs, hg, hz, Or.inl ⟨hp, hG, hb, Or.inl rfl⟩⟩
        · rw [htk] at ht
          simp at ht
        · rw [htk] at ht
          exact Option.noConfusion ht
      · rename_i g2 ht
        rcases hcase with ⟨hp, hG, hb, htk⟩ | ⟨hp, hG, hb, g, c, htk⟩ | ⟨hp, hG, hb, htk⟩
        · rcases htk with htk | ⟨w, c, htk, hwok⟩
          · rw [htk] at ht
            exact Option.noConfusion ht
          · rw [htk] at ht
            simp at ht
        · injection hst with hst
          subst hst
          refine ⟨hs, hg, hz, Or.inr (Or.inr ⟨hp, hG, rfl, ?_⟩)⟩
          simp [hp]
        · rw [htk] at ht
          exact Option.noConfusion ht
      · exact Option.noConfusion hst
  | zombieRun =>
      simp only [step] at hst
      split at hst
      · exact Option.noConfusion hst
      · rename_i z rest hzeq
        split at hst
        · rename_i w hw
          injection hst with hst
          subst hst
          refine ⟨hs, hg, ?_, hcase⟩
          intro z2 hm
          exact hz z2 (by rw [hzeq]; exact List.mem_cons_of_mem z hm)
        · rename_i g hw
          have hzw := hz z (by rw [hzeq]; exact List.mem_cons_self z rest)
          rw [hw] at hzw
          simp [isWaitTL] at hzw
  | stopBegin =>
      simp only [step] at hst
      split at hst
      · injection hst with hst
        subst hst
        refine ⟨hs, hg, hz, ?_⟩
        rcases hcase with ⟨hp, hG, hb, htk⟩ | ⟨hp, hG, hb, g, c, htk⟩ | ⟨hp, hG, hb, htk⟩
        · refine Or.inl ⟨hp, hG, hb, ?_⟩
          rcases htk with htk | ⟨w, c, htk, hwok⟩
          · exact Or.inl (by rw [htk]; rfl)
          · exact Or.inr ⟨w, true, by rw [htk]; rfl, hwok⟩
        · exact Or.inr (Or.inl ⟨hp, hG, hb, g, true, by rw [htk]; rfl⟩)
        · exact Or.inr (Or.inr ⟨hp, hG, hb, by rw [htk]; rfl⟩)
      · exact Option.noConfusion hst
  | saveRec =>
      simp only [step] at hst
      split at hst
      · injection hst with hst
        subst hst
        exact ⟨hs, hg, hz, hcase⟩
      · exact Option.noConfusion hst


theorem c2inv_run : ∀ {l : List Ev} {G : List (Option String)} {ts : List String}
    {s s2 : CM}, C2Inv G ts s → (∀ e ∈ l, isTranscriptEv e = false) →
    run l s = some s2 → C2Inv G ts s2 := by
  intro l
  induction l with
  | nil =>
      intro G ts s s2 hinv _ hr
      rw [run] at hr
      injection hr with hr
      subst hr
      exact hinv
  | cons e rest ih =>
      intro G ts s s2 hinv hnt hr
      rw [run] at hr
      cases hstep : step e s with
      | none => rw [hstep] at hr; exact Option.noConfusion hr
      | some s1 =>
          rw [hstep] at hr
          exact ih (c2inv_step hinv (hnt e (List.mem_cons_self e rest)) hstep)
            (fun e2 he2 => hnt e2 (List.mem_cons_of_mem e he2)) hr

/-- Processing a burst of final transcripts from a non-speaking state buffers
all of them in order, reschedules the ResponseTask each time, and invokes no
generation. -/
theorem run_transcripts : ∀ (ts : List String) (s : CM),
    s.started = true → s.stopped = false → s.botSpeaking = false → s.greeting = none →
    (∀ z ∈ s.zombies, isWaitTL z.loc = true) →
    (s.task = none ∨ ∃ w c, s.task = some ⟨.wait w, c⟩) →
    ∃ s1, run (ts.map Ev.transcript) s = some s1
      ∧ s1.started = true ∧ s1.stopped = false ∧ s1.botSpeaking = false
      ∧ s1.greeting = none ∧ s1.pending = s.pending ++ ts ∧ s1.genCalls = s.genCalls
      ∧ (∀ z ∈ s1.zombies, isWaitTL z.loc = true)
      ∧ ((ts = [] ∧ s1.task = s.task) ∨ s1.task = some ⟨.wait .settling, false⟩) := by
  intro ts
  induction ts with
  | nil =>
      intro s hs hstp hb hg hz htk
      exact ⟨s, rfl, hs, hstp, hb, hg, by simp, rfl, hz, Or.inl ⟨rfl, rfl⟩⟩
  | cons t rest ih =>
      intro s hs hstp hb hg hz htk
      have hstep : step (Ev.transcript t) s =
          some { s with utterances := s.utterances ++ [(.agent, t)],
                        pending := s.pending ++ [t],
                        task := some ⟨.wait .settling, false⟩,
                        zombies := s.zombies ++ (match s.task with
                          | some tk => [{ tk with cancelled := true }]
                          | none => []) } := by
        simp only [step, hs, hstp, hb]
        rfl
      have hzob : ∀ z ∈ s.zombies ++ (match s.task with
          | some tk => [{ tk with cancelled := true }]
          | none => []), isWaitTL z.loc = true := by
        intro z hm
        rcases List.mem_append.mp hm with hmm | hmm
        · exact hz z hmm
        · rcases htk with htk | ⟨w, c, htk⟩
          · rw [htk] at hmm
            simp at hmm
          · rw [htk] at hmm
            simp at hmm
            subst hmm
            rfl
      obtain ⟨s1, hr, a1, a2, a3, a4, a5, a6, a7, a8⟩ :=
        ih { s with utterances := s.utterances ++ [(.agent, t)],
                    pending := s.pending ++ [t],
                    task := some ⟨.wait .settling, false⟩,
                    zombies := s.zombies ++ (match s.task with
                      | some tk => [{ tk with cancelled := true }]
                      | none => []) }
          hs hstp hb hg hzob (Or.inr ⟨.settling, false, rfl⟩)
      refine ⟨s1, ?_, a1, a2, a3, a4, ?_, a6, a7, Or.inr ?_⟩
      · rw [List.map_cons, run, hstep]
        exact hr
      · rw [a5]
        simp
      · rcases a8 with ⟨_, h⟩ | h <;> exact h

/-- **C2.** No-loss buffering: from an idle state, a burst of final transcripts
`ts` (each arriving before the previous ResponseTask fires) is buffered
without loss; afterwards, along every continuation without further
transcripts, either no generation has happened yet or exactly one has, whose
input is the space-joined concatenation of all of `ts` in arrival order; and
when `ts` is nonempty, a continuation reaching that single generation exists. -/
theorem c2_no_loss_buffering (s : CM) (ts : List String) (hq : Quiescent s) :
    ∃ s1, run (ts.map Ev.transcript) s = some s1
    ∧ (∀ l s2, (∀ e ∈ l, isTranscriptEv e = false) → run l s1 = some s2 →
        s2.genCalls = s.genCalls
        ∨ s2.genCalls = s.genCalls ++ [some (String.intercalate " " ts)])
    ∧ (ts ≠ [] → ∃ l s2, (∀ e ∈ l, isTranscriptEv e = false) ∧ run l s1 = some s2
        ∧ s2.genCalls = s.genCalls ++ [some (String.intercalate " " ts)]) := by
  obtain ⟨hs, hstp, hb, hp, ht, hz, hg⟩ := hq
  obtain ⟨s1, hrun, h1s, h1stp, h1b, h1g, h1p, h1G, h1z, h1t⟩ :=
    run_transcripts ts s hs hstp hb hg (by rw [hz]; simp) (Or.inl ht)
  have hp1 : s1.pending = ts := by rw [h1p, hp, List.nil_append]
  refine ⟨s1, hrun, ?_, ?_⟩
  · intro l s2 hnt hrl
    have hinv1 : C2Inv s.genCalls ts s1 := by
      refine ⟨h1s, h1g, h1z, Or.inl ⟨hp1, h1G, h1b, ?_⟩⟩
      rcases h1t with ⟨_, h⟩ | h
      · exact Or.inl (by rw [h, ht])
      · exact Or.inr ⟨.settling, false, h, trivial⟩
    rcases (c2inv_run hinv1 hnt hrl).2.2.2 with ⟨_, hG, _, _⟩ | ⟨_, hG, _, _⟩ | ⟨_, hG, _⟩
    · exact Or.inl hG
    · exact Or.inr hG
    · exact Or.inr hG
  · intro hne
    have ht1 : s1.task = some ⟨.wait .settling, false⟩ := by
      rcases h1t with ⟨hnil, _⟩ | h
      · exact absurd hnil hne
      · exact h
    have hpe2 : ts.isEmpty = false := by
      cases ts with
      | nil => exact absurd rfl hne
      | cons a l2 => rfl
    have hpe : s1.pending.isEmpty = false := by rw [hp1]; exact hpe2
    have hstep1 : step Ev.settleDone s1 =
        some { s1 with task := some ⟨.wait .confirmSilence, false⟩ } := by
      simp [step, ht1]
    by_cases hsent : endsSentence (String.intercalate " " ts) = true
    · have hstep2 : step Ev.pollQuiet { s1 with task := some ⟨.wait .confirmSilence, false⟩ }
          = some (enterGen { s1 with task := some ⟨.wait .confirmSilence, false⟩ }
              (String.intercalate " " ts)) := by
        simp [step, hp1, hpe2, hsent]
      refine ⟨[Ev.settleDone, Ev.pollQuiet],
        enterGen { s1 with task := some ⟨.wait .confirmSilence, false⟩ }
          (String.intercalate " " ts), by decide, ?_, ?_⟩
      · simp only [run, hstep1, hstep2]
      · simp [enterGen, h1G]
    · have hsent2 : endsSentence (String.intercalate " " ts) = false := by
        simpa using hsent
      have hstep2 : step Ev.pollQuiet { s1 with task := some ⟨.wait .confirmSilence, false⟩ }
          = some { s1 with task := some ⟨.wait
              (.grace ts.length (String.intercalate " " ts)), false⟩ } := by
        simp [step, hp1, hpe2, hsent2]
      have hstep3 : step Ev.graceDone { s1 with task := some ⟨.wait
            (.grace ts.length (String.intercalate " " ts)), false⟩ }
          = some (enterGen { s1 with task := some ⟨.wait
              (.grace ts.length (String.intercalate " " ts)), false⟩ }
              (String.intercalate " " ts)) := by
        simp [step, hp1]
      refine ⟨[Ev.settleDone, Ev.pollQuiet, Ev.graceDone],
        enterGen { s1 with task := some ⟨.wait
            (.grace ts.length (String.intercalate " " ts)), false⟩ }
          (String.intercalate " " ts), by decide, ?_, ?_⟩
      · simp only [run, hstep1, hstep2, hstep3]
      · simp [enterGen, h1G]


/-- Witness for C2: from a quiescent session, two transcripts arriving within
the settle delay lead to one generation call with input
`"Hello, how can I help?"`. -/
theorem c2_no_loss_buffering_witness :
    ∃ s1, run (["Hello,", "how can I help?"].map Ev.transcript)
        (⟨false, [], none, [], none, true, false, false, [], 0, [], [none]⟩ : CM) = some s1
    ∧ (∀ l s2, (∀ e ∈ l, isTranscriptEv e = false) → run l s1 = some s2 →
        s2.genCalls = [none]
        ∨ s2.genCalls = [none] ++
            [some (String.intercalate " " ["Hello,", "how can I help?"])])
    ∧ (["Hello,", "how can I help?"] ≠ ([] : List String) →
        ∃ l s2, (∀ e ∈ l, isTranscriptEv e = false) ∧ run l s1 = some s2
        ∧ s2.genCalls = [none] ++
            [some (String.intercalate " " ["Hello,", "how can I help?"])]) :=
  c2_no_loss_buffering
    (⟨false, [], none, [], none, true, false, false, [], 0, [], [none]⟩ : CM)
    ["Hello,", "how can I help?"] ⟨rfl, rfl, rfl, rfl, rfl, rfl, rfl⟩

end FeelGood
